import Mathlib

/-!
Verification model of the `fulltext` inverted-index repository.

The Rust sources are shallowly embedded as executable Lean definitions:

* strings handled by the analyzer are modelled as `List Char` (`Str`);
* raw corpus data handled by the chunker, the memory maps and the
  serializer is modelled as `List Nat` of byte values (`Bytes`);
* machine integers are modelled as `Nat`/`Int` with explicit wrap-around
  (`wrapI32` for the `AtomicI32` id counter, `% 2^64` for `u64` lengths);
* Rust panics (slice-index panics, `assert!`, `unwrap`, `panic!`) are
  modelled as `Except Unit _` / `Option _` failures;
* the character classification `char::is_alphanumeric` and
  `str::to_lowercase` are modelled on the ASCII fragment of Unicode
  (identity outside ASCII); every corpus and query considered by the
  claims is ASCII.
-/

/-- Strings manipulated by the analyzer: a list of Unicode scalar values,
matching Rust `&str` contents (`char` = Unicode scalar value in both). -/
abbrev Str := List Char

/-- Byte buffers (`&[u8]`, `Vec<u8>`, `Mmap` contents). -/
abbrev Bytes := List Nat

/-- ASCII fragment of Rust `char::is_alphanumeric` (Unicode `Alphabetic`
or `Nd`/`Nl`/`No`); on the ASCII range those are exactly the letters and
digits.  All analyzed text in the development is ASCII. -/
def isWordChar (c : Char) : Bool :=
  (48 ≤ c.toNat && c.toNat ≤ 57) ||
  (65 ≤ c.toNat && c.toNat ≤ 90) ||
  (97 ≤ c.toNat && c.toNat ≤ 122)

/-- ASCII fragment of `str::to_lowercase` on a single scalar:
`A`..`Z` map to `a`..`z`, everything else is unchanged. -/
def lowerChar (c : Char) : Char :=
  if 65 ≤ c.toNat && c.toNat ≤ 90 then Char.ofNat (c.toNat + 32) else c

/-- `str::to_lowercase` of a segment. -/
def lowerStr (s : Str) : Str := s.map lowerChar

/-- Rust `str::split(pred)` semantics: separators are single chars
satisfying `p`; empty segments between adjacent separators and at the
ends are kept, and splitting the empty string yields `[""]`. -/
def splitP (p : Char → Bool) : Str → List Str
  | [] => [[]]
  | c :: rest =>
    if p c then [] :: splitP p rest
    else
      match splitP p rest with
      | [] => [[c]]
      | s :: ss => (c :: s) :: ss

/-- The fixed English stopword list of `Analyzer::new_english`. -/
def stopwords : List Str :=
  [['a'], ['a','n','d'], ['b','e'], ['h','a','v','e'], ['i'],
   ['i','n'], ['o','f'], ['t','h','a','t'], ['t','h','e'], ['t','o']]

/-! ### The English (Porter2 / Snowball) stemmer

Modelled from the spec: the repository delegates stemming to the external
`rust_stemmers` crate (`Algorithm::English`), whose code is not under
`src/`; the spec fixes it as "the English Snowball stemmer applied to
every surviving token".  The definitions below implement the published
Snowball English stemmer.  Apostrophe handling (Step 0 and the initial
apostrophe of the prelude) is omitted: the analyzer only ever feeds the
stemmer segments of alphanumeric characters, which contain none. -/

/-- Snowball vowels (`a e i o u y`); a marked `Y` counts as a consonant. -/
def isVowelC (c : Char) : Bool :=
  c = 'a' || c = 'e' || c = 'i' || c = 'o' || c = 'u' || c = 'y'

/-- Prelude y-marking: set initial `y`, or `y` after a vowel, to `Y`.
The boolean argument records whether the previous character is a vowel
(true at the start so that an initial `y` is marked). -/
def markYsAux : Bool → Str → Str
  | _, [] => []
  | prevV, c :: rest =>
    let c' := if c = 'y' && prevV then 'Y' else c
    c' :: markYsAux (isVowelC c') rest

def markYs (w : Str) : Str := markYsAux true w

/-- Number of characters up to and including the first non-vowel
(the whole length when every character is a vowel). -/
def nvAfter : Str → Nat
  | [] => 0
  | c :: rest => if isVowelC c then 1 + nvAfter rest else 1

/-- Standard region computation: the index just after the first
non-vowel that follows a vowel (the length when there is none). -/
def r1Std : Str → Nat
  | [] => 0
  | c :: rest => if isVowelC c then 1 + nvAfter rest else 1 + r1Std rest

/-- `R1` start position, with the special prefixes `gener`, `commun`,
`arsen` of the Snowball English stemmer. -/
def r1Pos (w : Str) : Nat :=
  if (['g','e','n','e','r'] : Str).isPrefixOf w then 5
  else if (['c','o','m','m','u','n'] : Str).isPrefixOf w then 6
  else if (['a','r','s','e','n'] : Str).isPrefixOf w then 5
  else r1Std w

/-- `R2` start position: the standard scan applied within `R1`. -/
def r2Pos (w : Str) : Nat := r1Pos w + r1Std (w.drop (r1Pos w))

def endsWith (w suf : Str) : Bool := suf.isSuffixOf w

/-- Remove the last `k` characters. -/
def chopSuffix (w : Str) (k : Nat) : Str := w.take (w.length - k)

/-- Replace the last `k` characters by `rep`. -/
def replaceSuf (w : Str) (k : Nat) (rep : Str) : Str := w.take (w.length - k) ++ rep

def hasVowel (w : Str) : Bool := w.any isVowelC

/-- The character immediately before the last `k` characters. -/
def precChar (w : Str) (k : Nat) : Option Char :=
  (w.take (w.length - k)).getLast?

/-- Does the word end in a short syllable?  Either non-vowel, vowel,
non-vowel other than `w x Y`, or the word is exactly vowel, non-vowel. -/
def endsShortSyllable (w : Str) : Bool :=
  match w.reverse with
  | c1 :: c2 :: c3 :: _ =>
    isVowelC c2 && !isVowelC c1 && c1 ≠ 'w' && c1 ≠ 'x' && c1 ≠ 'Y' && !isVowelC c3
  | [c1, c2] => isVowelC c2 && !isVowelC c1
  | _ => false

/-- A word is short when it ends in a short syllable and `R1` is null. -/
def isShortWord (w : Str) (p1 : Nat) : Bool :=
  endsShortSyllable w && w.length ≤ p1

def exceptions1 : List (Str × Str) :=
  [("skis".toList, "ski".toList), ("skies".toList, "sky".toList),
   ("dying".toList, "die".toList), ("lying".toList, "lie".toList),
   ("tying".toList, "tie".toList), ("idly".toList, "idl".toList),
   ("gently".toList, "gentl".toList), ("ugly".toList, "ugli".toList),
   ("early".toList, "earli".toList), ("only".toList, "onli".toList),
   ("singly".toList, "singl".toList), ("sky".toList, "sky".toList),
   ("news".toList, "news".toList), ("howe".toList, "howe".toList),
   ("atlas".toList, "atlas".toList), ("cosmos".toList, "cosmos".toList),
   ("bias".toList, "bias".toList), ("andes".toList, "andes".toList)]

def exception1 (w : Str) : Option Str :=
  (exceptions1.find? (fun p => p.1 == w)).map (fun p => p.2)

def exceptions2 : List Str :=
  ["inning".toList, "outing".toList, "canning".toList, "herring".toList,
   "earring".toList, "proceed".toList, "exceed".toList, "succeed".toList]

def step1a (w : Str) : Str :=
  if endsWith w ("sses".toList) then replaceSuf w 4 ("ss".toList)
  else if endsWith w ("ied".toList) || endsWith w ("ies".toList) then
    (if 4 < w.length then replaceSuf w 3 ['i'] else replaceSuf w 3 ("ie".toList))
  else if endsWith w ("us".toList) || endsWith w ("ss".toList) then w
  else if endsWith w ['s'] then
    (if (w.take (w.length - 2)).any isVowelC then chopSuffix w 1 else w)
  else w

def doubles : List Str :=
  [['b','b'], ['d','d'], ['f','f'], ['g','g'], ['m','m'],
   ['n','n'], ['p','p'], ['r','r'], ['t','t']]

def endsDouble (w : Str) : Bool := doubles.any (fun d => endsWith w d)

/-- The fix-up after deleting `ed edly ing ingly` in Step 1b. -/
def after1bAdjust (w : Str) (p1 : Nat) : Str :=
  if endsWith w ("at".toList) || endsWith w ("bl".toList) || endsWith w ("iz".toList)
  then w ++ ['e']
  else if endsDouble w then chopSuffix w 1
  else if isShortWord w p1 then w ++ ['e']
  else w

/-- Step 1b deletion branch for `ed edly ing ingly`. -/
def step1bDel (w : Str) (k : Nat) (p1 : Nat) : Str :=
  if hasVowel (w.take (w.length - k)) then after1bAdjust (chopSuffix w k) p1 else w

def step1b (w : Str) (p1 : Nat) : Str :=
  if endsWith w ("eedly".toList) then
    (if p1 + 5 ≤ w.length then replaceSuf w 5 ("ee".toList) else w)
  else if endsWith w ("ingly".toList) then step1bDel w 5 p1
  else if endsWith w ("edly".toList) then step1bDel w 4 p1
  else if endsWith w ("eed".toList) then
    (if p1 + 3 ≤ w.length then replaceSuf w 3 ("ee".toList) else w)
  else if endsWith w ("ing".toList) then step1bDel w 3 p1
  else if endsWith w ("ed".toList) then step1bDel w 2 p1
  else w

def step1c (w : Str) : Str :=
  match w.reverse with
  | y :: c :: rest =>
    if (y = 'y' || y = 'Y') && !isVowelC c && rest ≠ [] then
      chopSuffix w 1 ++ ['i']
    else w
  | _ => w

/-- Extra conditions carried by some suffix rules of Steps 2-4. -/
inductive SCond where
  | base
  | precededByL
  | validLI
  | alsoR2
  | precededBySorT
deriving DecidableEq

structure SufRule where
  suf : Str
  rep : Str
  cond : SCond

def validLIChars : List Char := ['c','d','e','g','h','k','m','n','r','t']

def condHolds (w : Str) (p2 : Nat) (r : SufRule) : Bool :=
  match r.cond with
  | .base => true
  | .precededByL => precChar w r.suf.length == some 'l'
  | .validLI =>
    match precChar w r.suf.length with
    | some c => validLIChars.contains c
    | none => false
  | .alsoR2 => p2 + r.suf.length ≤ w.length
  | .precededBySorT =>
    precChar w r.suf.length == some 's' || precChar w r.suf.length == some 't'

/-- Snowball `among` semantics: find the longest matching suffix (the
rule lists are ordered by decreasing suffix length), then apply its
replacement only if the suffix starts inside the step's region and the
rule's extra condition holds; otherwise change nothing. -/
def applyRules (region p2 : Nat) (rules : List SufRule) (w : Str) : Str :=
  match rules.find? (fun r => endsWith w r.suf) with
  | none => w
  | some r =>
    if region + r.suf.length ≤ w.length && condHolds w p2 r then
      replaceSuf w r.suf.length r.rep
    else w

def step2Rules : List SufRule :=
  [⟨"ization".toList, "ize".toList, .base⟩,
   ⟨"ational".toList, "ate".toList, .base⟩,
   ⟨"fulness".toList, "ful".toList, .base⟩,
   ⟨"ousness".toList, "ous".toList, .base⟩,
   ⟨"iveness".toList, "ive".toList, .base⟩,
   ⟨"tional".toList, "tion".toList, .base⟩,
   ⟨"biliti".toList, "ble".toList, .base⟩,
   ⟨"lessli".toList, "less".toList, .base⟩,
   ⟨"entli".toList, "ent".toList, .base⟩,
   ⟨"ation".toList, "ate".toList, .base⟩,
   ⟨"alism".toList, "al".toList, .base⟩,
   ⟨"aliti".toList, "al".toList, .base⟩,
   ⟨"ousli".toList, "ous".toList, .base⟩,
   ⟨"iviti".toList, "ive".toList, .base⟩,
   ⟨"fulli".toList, "ful".toList, .base⟩,
   ⟨"enci".toList, "ence".toList, .base⟩,
   ⟨"anci".toList, "ance".toList, .base⟩,
   ⟨"abli".toList, "able".toList, .base⟩,
   ⟨"izer".toList, "ize".toList, .base⟩,
   ⟨"ator".toList, "ate".toList, .base⟩,
   ⟨"alli".toList, "al".toList, .base⟩,
   ⟨"ogi".toList, "og".toList, .precededByL⟩,
   ⟨"bli".toList, "ble".toList, .base⟩,
   ⟨"li".toList, [], .validLI⟩]

def step3Rules : List SufRule :=
  [⟨"ational".toList, "ate".toList, .base⟩,
   ⟨"tional".toList, "tion".toList, .base⟩,
   ⟨"alize".toList, "al".toList, .base⟩,
   ⟨"icate".toList, "ic".toList, .base⟩,
   ⟨"iciti".toList, "ic".toList, .base⟩,
   ⟨"ative".toList, [], .alsoR2⟩,
   ⟨"ical".toList, "ic".toList, .base⟩,
   ⟨"ness".toList, [], .base⟩,
   ⟨"ful".toList, [], .base⟩]

def step4Rules : List SufRule :=
  [⟨"ement".toList, [], .base⟩,
   ⟨"ance".toList, [], .base⟩,
   ⟨"ence".toList, [], .base⟩,
   ⟨"able".toList, [], .base⟩,
   ⟨"ible".toList, [], .base⟩,
   ⟨"ment".toList, [], .base⟩,
   ⟨"ant".toList, [], .base⟩,
   ⟨"ent".toList, [], .base⟩,
   ⟨"ism".toList, [], .base⟩,
   ⟨"ate".toList, [], .base⟩,
   ⟨"iti".toList, [], .base⟩,
   ⟨"ous".toList, [], .base⟩,
   ⟨"ive".toList, [], .base⟩,
   ⟨"ize".toList, [], .base⟩,
   ⟨"ion".toList, [], .precededBySorT⟩,
   ⟨"al".toList, [], .base⟩,
   ⟨"er".toList, [], .base⟩,
   ⟨"ic".toList, [], .base⟩]

def step5 (w : Str) (p1 p2 : Nat) : Str :=
  if w.getLast? == some 'e' then
    (if p2 + 1 ≤ w.length ||
        (p1 + 1 ≤ w.length && !endsShortSyllable (w.take (w.length - 1)))
     then chopSuffix w 1 else w)
  else if w.getLast? == some 'l' then
    (if p2 + 1 ≤ w.length && precChar w 1 == some 'l' then chopSuffix w 1 else w)
  else w

/-- Postlude: turn marked `Y` back into `y`. -/
def unY (w : Str) : Str := w.map (fun c => if c = 'Y' then 'y' else c)

/-- The English Snowball stemmer (`rust_stemmers::Algorithm::English`). -/
def englishStem (word : Str) : Str :=
  match exception1 word with
  | some r => r
  | none =>
    if word.length ≤ 2 then word
    else
      let w0 := markYs word
      let p1 := r1Pos w0
      let p2 := r2Pos w0
      let w1 := step1a w0
      if exceptions2.contains w1 then unY w1
      else
        let w2 := step1b w1 p1
        let w3 := step1c w2
        let w4 := applyRules p1 p2 step2Rules w3
        let w5 := applyRules p1 p2 step3Rules w4
        let w6 := applyRules p2 p2 step4Rules w5
        let w7 := step5 w6 p1 p2
        unY w7

/-- `Analyzer::analyze`: split at every non-alphanumeric character,
lowercase each segment, drop stopwords and empty segments, stem. -/
def analyze (letters : Str) : List Str :=
  ((((splitP (fun c => !isWordChar c) letters).map lowerStr).filter
      (fun x => !stopwords.contains x && !x.isEmpty)).map englishStem)

/-! ### UTF-8

Strict byte-level UTF-8 validation and decoding, matching Rust
`core::str::from_utf8` acceptance (no overlong forms, no surrogates,
scalar values below `0x110000`), and the standard UTF-8 encoder. -/

/-- Is `b` a UTF-8 continuation byte (`0x80..=0xBF`)? -/
def isCont (b : Nat) : Bool := 0x80 ≤ b && b ≤ 0xBF

/-- Strict UTF-8 validity of a whole byte sequence, exactly the
sequences accepted by `std::str::from_utf8`. -/
def utf8Valid : Bytes → Bool
  | [] => true
  | b :: rest =>
    if b ≤ 0x7F then utf8Valid rest
    else if 0xC2 ≤ b && b ≤ 0xDF then
      match rest with
      | b1 :: r => isCont b1 && utf8Valid r
      | [] => false
    else if b = 0xE0 then
      match rest with
      | b1 :: b2 :: r => (0xA0 ≤ b1 && b1 ≤ 0xBF) && isCont b2 && utf8Valid r
      | _ => false
    else if (0xE1 ≤ b && b ≤ 0xEC) || (0xEE ≤ b && b ≤ 0xEF) then
      match rest with
      | b1 :: b2 :: r => isCont b1 && isCont b2 && utf8Valid r
      | _ => false
    else if b = 0xED then
      match rest with
      | b1 :: b2 :: r => (0x80 ≤ b1 && b1 ≤ 0x9F) && isCont b2 && utf8Valid r
      | _ => false
    else if b = 0xF0 then
      match rest with
      | b1 :: b2 :: b3 :: r =>
        (0x90 ≤ b1 && b1 ≤ 0xBF) && isCont b2 && isCont b3 && utf8Valid r
      | _ => false
    else if 0xF1 ≤ b && b ≤ 0xF3 then
      match rest with
      | b1 :: b2 :: b3 :: r => isCont b1 && isCont b2 && isCont b3 && utf8Valid r
      | _ => false
    else if b = 0xF4 then
      match rest with
      | b1 :: b2 :: b3 :: r =>
        (0x80 ≤ b1 && b1 ≤ 0x8F) && isCont b2 && isCont b3 && utf8Valid r
      | _ => false
    else false

/-- The UTF-8 encoding of one Unicode scalar value. -/
def utf8EncodeChar (c : Char) : Bytes :=
  let v := c.toNat
  if v < 0x80 then [v]
  else if v < 0x800 then [0xC0 + v / 0x40, 0x80 + v % 0x40]
  else if v < 0x10000 then
    [0xE0 + v / 0x1000, 0x80 + v / 0x40 % 0x40, 0x80 + v % 0x40]
  else
    [0xF0 + v / 0x40000, 0x80 + v / 0x1000 % 0x40, 0x80 + v / 0x40 % 0x40,
     0x80 + v % 0x40]

/-- The UTF-8 encoding of a string. -/
def utf8Encode (s : Str) : Bytes := s.flatMap utf8EncodeChar

/-- Strict decoding of one UTF-8 scalar; mirrors `utf8Valid`. -/
def utf8DecodeChar : Bytes → Option (Char × Bytes)
  | [] => none
  | b :: rest =>
    if b ≤ 0x7F then some (Char.ofNat b, rest)
    else if 0xC2 ≤ b && b ≤ 0xDF then
      match rest with
      | b1 :: r =>
        if isCont b1 then some (Char.ofNat ((b - 0xC0) * 0x40 + (b1 - 0x80)), r)
        else none
      | [] => none
    else if 0xE0 ≤ b && b ≤ 0xEF then
      match rest with
      | b1 :: b2 :: r =>
        if (if b = 0xE0 then (0xA0 ≤ b1 && b1 ≤ 0xBF)
            else if b = 0xED then (0x80 ≤ b1 && b1 ≤ 0x9F)
            else isCont b1) && isCont b2 then
          some (Char.ofNat ((b - 0xE0) * 0x1000 + (b1 - 0x80) * 0x40 + (b2 - 0x80)), r)
        else none
      | _ => none
    else if 0xF0 ≤ b && b ≤ 0xF4 then
      match rest with
      | b1 :: b2 :: b3 :: r =>
        if (if b = 0xF0 then (0x90 ≤ b1 && b1 ≤ 0xBF)
            else if b = 0xF4 then (0x80 ≤ b1 && b1 ≤ 0x8F)
            else isCont b1) && isCont b2 && isCont b3 then
          some (Char.ofNat ((b - 0xF0) * 0x40000 + (b1 - 0x80) * 0x1000 +
                (b2 - 0x80) * 0x40 + (b3 - 0x80)), r)
        else none
      | _ => none
    else none

/-- Decode a complete byte sequence to a string (fuelled recursion; the
fuel is the byte count, and every scalar consumes at least one byte). -/
def utf8DecodeAux : Nat → Bytes → Option Str
  | _, [] => some []
  | 0, _ :: _ => none
  | fuel + 1, bs =>
    match utf8DecodeChar bs with
    | none => none
    | some (c, rest) =>
      match utf8DecodeAux fuel rest with
      | none => none
      | some s => some (c :: s)

def utf8Decode (bs : Bytes) : Option Str := utf8DecodeAux bs.length bs

/-! ### The chunker (`split_contents` and `get_next_codepoint_idx`)

The corpus is a `&str`; slicing it and probing windows of
`size_of::<char>() = 4` bytes can panic, which the model reflects with
`Option`/`Except` failures. -/

/-- Rust `str::is_char_boundary`. -/
def isCharBoundaryB (bs : Bytes) (i : Nat) : Bool :=
  i = 0 || i = bs.length || (i < bs.length && !isCont (bs.getD i 0))

/-- Rust `&s[a..b]` string slicing: panics (`none`) when the range is
out of bounds or an endpoint is not a char boundary. -/
def sliceStr (bs : Bytes) (a b : Nat) : Option Bytes :=
  if a ≤ b && b ≤ bs.length && isCharBoundaryB bs a && isCharBoundaryB bs b then
    some ((bs.take b).drop a)
  else none

/-- The loop of `get_next_codepoint_idx`, written with an explicit
fuel (any fuel at least `bs.length - i` gives the loop's behaviour; the
`0` arm is unreachable then). -/
def gncpFuel (bs : Bytes) : Nat → Nat → Option Nat
  | 0, i => some i
  | fuel + 1, i =>
    if i < bs.length then
      if i + 4 > bs.length then none
      else if utf8Valid ((bs.drop i).take 4) then some i
      else gncpFuel bs fuel (i + 1)
    else some i

/-- `get_next_codepoint_idx`: advance `try_index` until the 4-byte
window at it decodes as UTF-8; `none` models the panic of
`&raw_bytes[try_index..try_index + 4]` when the window overruns. -/
def get_next_codepoint_idx (bs : Bytes) (i : Nat) : Option Nat :=
  gncpFuel bs (bs.length - i) i

/-- Is `tag` a prefix of `l`? -/
def prefixAt (tag l : Bytes) : Bool := tag.isPrefixOf l

/-- Rust `str::find` with a string pattern: byte index of the first
occurrence of `tag` (total, no panic). -/
def findSub : Bytes → Bytes → Option Nat
  | l, tag =>
    if prefixAt tag l then some 0
    else
      match l with
      | [] => none
      | _ :: rest => (findSub rest tag).map (· + 1)

/-- One emitted chunk: `ContentsSplit { base_offset, data }`. -/
structure ContentsSplit where
  base_offset : Nat
  data : Bytes
deriving DecidableEq, Repr

/-- The loop body of `split_contents`, iterated `num_chunks` times.
`cps` is `chars_per_split`, `prev` is `prev_index`.  Mirrors the Rust
loop: probe at `prev + cps`, realign to a code point, search for the
tag, and cut the chunk; `Except.error` models a panic. -/
def splitLoop (bs tag : Bytes) (cps : Nat) : Nat → Nat → Except Unit (List ContentsSplit)
  | 0, _ => .ok []
  | k + 1, prev =>
    match get_next_codepoint_idx bs (prev + cps) with
    | none => .error ()
    | some t =>
      if bs.length ≤ t then
        match sliceStr bs prev bs.length with
        | none => .error ()
        | some s => .ok [⟨prev, s⟩]
      else
        match sliceStr bs t bs.length with
        | none => .error ()
        | some restStr =>
          let ending :=
            match findSub restStr tag with
            | some idx => t + idx + 6
            | none => bs.length - 1
          match sliceStr bs prev ending with
          | none => .error ()
          | some s =>
            match splitLoop bs tag cps k ending with
            | .error e => .error e
            | .ok more => .ok (⟨prev, s⟩ :: more)

/-- `split_contents(contents, split_on_tag, num_chunks)`.  The
`assert!(num_chunks > 0)` is modelled as an error at `0`. -/
def split_contents (bs tag : Bytes) (num_chunks : Nat) : Except Unit (List ContentsSplit) :=
  if num_chunks = 0 then .error ()
  else if num_chunks ≤ 1 then .ok [⟨0, bs⟩]
  else splitLoop bs tag (bs.length / num_chunks) num_chunks 0

/-! ### Documents and the id counter -/

/-- `DocumentRaw`: byte ranges into the corpus plus the `i32` id. -/
structure DocumentRaw where
  title : Nat × Nat
  url : Nat × Nat
  text : Nat × Nat
  id : Int
deriving DecidableEq, Repr

/-- `i32` wrap-around, as performed by `AtomicI32::fetch_add`. -/
def wrapI32 (x : Int) : Int := (x + 2 ^ 31) % 2 ^ 32 - 2 ^ 31

/-- One parser thread's output before ids are assigned: the ranges
produced by tokenizing its chunk (their values are irrelevant to the
id claims, so they are universally quantified at the theorems). -/
structure PreDoc where
  title : Nat × Nat
  url : Nat × Nat
  text : Nat × Nat
deriving DecidableEq, Repr

/-- Run an interleaving of `fetch_add(1, SeqCst)` calls: `sched`
names, in global order, the thread performing each fetch-add; the
result records each thread's id in issue order. -/
def runSched : List Nat → Int → List (Nat × Int)
  | [], _ => []
  | t :: ts, c => (t, c) :: runSched ts (wrapI32 (c + 1))

/-- The ids a given thread received, in its own program order. -/
def blockIds (run : List (Nat × Int)) (t : Nat) : List Int :=
  (run.filter (fun p => p.1 == t)).map Prod.snd

/-- Stamp a thread's parsed documents with the ids it drew. -/
def stampDocs (pre : List PreDoc) (ids : List Int) : List DocumentRaw :=
  List.zipWith (fun p i => ⟨p.title, p.url, p.text, i⟩) pre ids

/-- The concatenated (unsorted) document table: thread `t` contributes
its stamped documents, as collected by `par_iter().flatten()` /
the all-docs channel. -/
def buildTable (payloads : List (List PreDoc)) (sched : List Nat) : List DocumentRaw :=
  (List.range payloads.length).flatMap
    (fun t => stampDocs (payloads.getD t []) (blockIds (runSched sched 0) t))

/-- `self.documents.sort()` — a stable sort by the `Ord` instance of
`DocumentRaw`, which compares ids only. -/
def sortDocs (l : List DocumentRaw) : List DocumentRaw :=
  List.insertionSort (fun a b => a.id ≤ b.id) l

/-! ### The inverted index and the build topologies

`HashMap<String, HashSet<i32>>` is modelled as an association list with
unique keys; iteration order of the hash containers is arbitrary in
Rust, and every claim about them compares key sets and id sets only. -/

/-- An inverted index: term, posting set (`HashSet` modelled as a
duplicate-free list). -/
abbrev InvIndex := List (Str × List Int)

/-- `HashMap::get`. -/
def idxGet (m : InvIndex) (k : Str) : Option (List Int) :=
  (m.find? (fun e => e.1 == k)).map (fun e => e.2)

/-- Update the posting set of an existing key in place. -/
def idxUpdate (m : InvIndex) (k : Str) (f : List Int → List Int) : InvIndex :=
  m.map (fun e => if e.1 == k then (e.1, f e.2) else e)

/-- `HashSet::insert`: a set ignores duplicates. -/
def setInsert (s : List Int) (i : Int) : List Int :=
  if s.contains i then s else s ++ [i]

/-- `set.extend(other)`: set union by repeated insertion. -/
def setUnion (a b : List Int) : List Int := b.foldl setInsert a

/-- The per-token insertion of the indexing loops: `get_mut` then
`insert` into the set, or create a fresh singleton entry. -/
def idxInsertToken (m : InvIndex) (k : Str) (i : Int) : InvIndex :=
  match idxGet m k with
  | some _ => idxUpdate m k (fun s => setInsert s i)
  | none => m ++ [(k, [i])]

/-- Merging one entry of a partial index into the accumulated index
(the body of the reduce loops in both indexers). -/
def idxMergeEntry (a : InvIndex) (e : Str × List Int) : InvIndex :=
  match idxGet a e.1 with
  | some _ => idxUpdate a e.1 (fun s => setUnion s e.2)
  | none => a ++ [e]

/-- Pairwise reduction of partial indices. -/
def idxMerge (a b : InvIndex) : InvIndex := b.foldl idxMergeEntry a

def hasKey (m : InvIndex) (k : Str) : Bool := (idxGet m k).isSome

/-- The analyzed terms of a byte range of the corpus
(`analyzer.analyze(&full_contents[d.text.clone()])`).  The range is
sliced with Rust's char-boundary checks; the impossible failure cases
(panics on malformed ranges) default to no tokens. -/
def tokensOfRange (contents : Bytes) (r : Nat × Nat) : List Str :=
  match sliceStr contents r.1 r.2 with
  | some sl =>
    match utf8Decode sl with
    | some s => analyze s
    | none => []
  | none => []

def tokensOf (contents : Bytes) (d : DocumentRaw) : List Str :=
  tokensOfRange contents d.text

/-- `index_docs_index_only` / the inner loops of `index_task`: build a
local inverted index from a run of documents. -/
def indexDocs (contents : Bytes) (docs : List DocumentRaw) : InvIndex :=
  docs.foldl
    (fun m d => (tokensOf contents d).foldl (fun m' t => idxInsertToken m' t d.id) m)
    []

/-- The recursion of `slice::chunks(k)` with an explicit fuel (any
fuel at least the list length gives the chunking; `k = 0` cannot occur
at the call sites, which take `max _ 1`). -/
def chunksOfAux (k : Nat) : Nat → List α → List (List α)
  | _, [] => []
  | 0, l => [l]
  | fuel + 1, x :: xs =>
    if k = 0 then [x :: xs]
    else (x :: xs).take k :: chunksOfAux k fuel ((x :: xs).drop k)

/-- `slice::chunks(k)`. -/
def chunksOf (k : Nat) (l : List α) : List (List α) := chunksOfAux k l.length l

/-- The map/reduce topology of `RayonIndexer::build_from_file_contents`:
chunk the document table, index each chunk, reduce pairwise. -/
def rayonBuild (contents : Bytes) (docs : List DocumentRaw) (numThreads : Nat) : InvIndex :=
  ((chunksOf (max (docs.length / numThreads) 1) docs).map (indexDocs contents)).foldl
    idxMerge []

/-- The partitioned pipeline topology of `ThreadPoolIndexer::build_hashmap`:
each indexer worker builds a local index from the documents it happened
to drain from the channel (`distrib`), and the coordinator folds the
partials into the first one received. -/
def pipelineBuild (contents : Bytes) (distrib : List (List DocumentRaw)) : InvIndex :=
  match distrib.map (indexDocs contents) with
  | [] => []
  | m :: rest => rest.foldl idxMerge m

/-! #### The shared `DashMap` topology, at check/insert granularity

`dashmap_index_task` runs, for each token, `get_mut(&token)`; the
`Some` arm mutates the shared set under the shard lock (one atomic
step), but the `None` arm releases the lock and later calls
`insert(token, fresh_set)`, which overwrites whatever is there by then.
The machine below interleaves the workers at exactly that granularity:
a worker with a `pending` fresh-key insertion performs the blind
overwrite as its next step. -/

/-- `DashMap::insert`: overwrite or create. -/
def idxOverwrite (m : InvIndex) (k : Str) (s : List Int) : InvIndex :=
  match idxGet m k with
  | some _ => m.map (fun e => if e.1 == k then (k, s) else e)
  | none => m ++ [(k, s)]

structure DashWorker where
  ops : List (Str × Int)
  pending : Option (Str × Int)
deriving DecidableEq, Repr

structure DashState where
  map : InvIndex
  workers : List DashWorker
deriving Repr

/-- One scheduled micro-step of one worker. -/
def dashStepWorker (m : InvIndex) (wk : DashWorker) : InvIndex × DashWorker :=
  match wk.pending with
  | some (k, i) => (idxOverwrite m k [i], ⟨wk.ops, none⟩)
  | none =>
    match wk.ops with
    | [] => (m, wk)
    | (k, i) :: rest =>
      match idxGet m k with
      | some _ => (idxUpdate m k (fun s => setInsert s i), ⟨rest, none⟩)
      | none => (m, ⟨rest, some (k, i)⟩)

def dashStep (st : DashState) (w : Nat) : DashState :=
  if w < st.workers.length then
    let p := dashStepWorker st.map (st.workers.getD w ⟨[], none⟩)
    ⟨p.1, st.workers.set w p.2⟩
  else st

def dashRun (sched : List Nat) (st : DashState) : DashState :=
  sched.foldl dashStep st

/-- The `(token, id)` insertions a document generates. -/
def docPairs (contents : Bytes) (d : DocumentRaw) : List (Str × Int) :=
  (tokensOf contents d).map (fun t => (t, d.id))

def workerStream (contents : Bytes) (ds : List DocumentRaw) : List (Str × Int) :=
  ds.flatMap (docPairs contents)

/-- The shared-map pipeline of `ThreadPoolIndexer::build_dashmap`:
run the workers' token streams under a schedule. -/
def dashBuild (streams : List (List (Str × Int))) (sched : List Nat) : InvIndex :=
  (dashRun sched ⟨[], streams.map (fun o => ⟨o, none⟩)⟩).map

/-! ### Search -/

/-- The id-level content of `search`: for each input term, for each
analyzed term, the posting set when the index has the key.  Document
materialization copies title/url/text bytes and does not affect the
per-term id sets the claims compare. -/
def searchIds (idx : InvIndex) (terms : List Str) : List (Str × List Int) :=
  terms.flatMap
    (fun q => (analyze q).filterMap (fun t => (idxGet idx t).map (fun ids => (t, ids))))

/-! ### Serialization (`bincode`) and the cache files

Modelled from the spec: `bincode` is an external crate; §4.G fixes the
format as length-prefixed records — the document table as a sequence of
records, the inverted index as `(term_bytes, ids_len, ids…)` entries —
which is `bincode` v1's fixed-width little-endian encoding: `u64`
lengths, UTF-8 string bytes, two's-complement `i32` ids. -/

/-- `k`-byte little-endian encoding of `n % 256^k`. -/
def toLE : Nat → Nat → Bytes
  | 0, _ => []
  | k + 1, n => n % 256 :: toLE k (n / 256)

def fromLE : Bytes → Nat
  | [] => 0
  | b :: bs => b + 256 * fromLE bs

def u64le (n : Nat) : Bytes := toLE 8 n

/-- Two's-complement little-endian `i32`. -/
def i32le (z : Int) : Bytes := toLE 4 (z % 2 ^ 32).toNat

def encodeStr (s : Str) : Bytes :=
  u64le (utf8Encode s).length ++ utf8Encode s

def encodeIds (ids : List Int) : Bytes := u64le ids.length ++ ids.flatMap i32le

def encodeIndex (m : InvIndex) : Bytes :=
  u64le m.length ++ m.flatMap (fun e => encodeStr e.1 ++ encodeIds e.2)

def encodeRange (r : Nat × Nat) : Bytes := u64le r.1 ++ u64le r.2

def encodeDoc (d : DocumentRaw) : Bytes :=
  encodeRange d.title ++ encodeRange d.url ++ encodeRange d.text ++ i32le d.id

def encodeDocs (ds : List DocumentRaw) : Bytes :=
  u64le ds.length ++ ds.flatMap encodeDoc

def takeBytes (k : Nat) (bs : Bytes) : Option (Bytes × Bytes) :=
  if k ≤ bs.length then some (bs.take k, bs.drop k) else none

def decodeU64 (bs : Bytes) : Option (Nat × Bytes) :=
  (takeBytes 8 bs).map (fun p => (fromLE p.1, p.2))

def decodeI32 (bs : Bytes) : Option (Int × Bytes) :=
  (takeBytes 4 bs).map
    (fun p => (if fromLE p.1 < 2 ^ 31 then (fromLE p.1 : Int) else (fromLE p.1 : Int) - 2 ^ 32, p.2))

def decodeStr (bs : Bytes) : Option (Str × Bytes) :=
  match decodeU64 bs with
  | none => none
  | some (n, r) =>
    match takeBytes n r with
    | none => none
    | some (sb, r') =>
      match utf8Decode sb with
      | none => none
      | some s => some (s, r')

def decodeListAux (dec : Bytes → Option (α × Bytes)) : Nat → Bytes → Option (List α × Bytes)
  | 0, bs => some ([], bs)
  | k + 1, bs =>
    match dec bs with
    | none => none
    | some (a, r) =>
      match decodeListAux dec k r with
      | none => none
      | some (as, r') => some (a :: as, r')

def decodeIds (bs : Bytes) : Option (List Int × Bytes) :=
  match decodeU64 bs with
  | none => none
  | some (n, r) => decodeListAux decodeI32 n r

def decodeEntry (bs : Bytes) : Option ((Str × List Int) × Bytes) :=
  match decodeStr bs with
  | none => none
  | some (k, r) =>
    match decodeIds r with
    | none => none
    | some (ids, r') => some ((k, ids), r')

/-- `bincode::deserialize::<HashMap<String, HashSet<i32>>>` (trailing
bytes are not rejected by `bincode::deserialize`). -/
def decodeIndex (bs : Bytes) : Option InvIndex :=
  match decodeU64 bs with
  | none => none
  | some (n, r) => (decodeListAux decodeEntry n r).map (fun p => p.1)

def decodeDoc (bs : Bytes) : Option (DocumentRaw × Bytes) :=
  match decodeU64 bs with
  | none => none
  | some (t1, r1) =>
    match decodeU64 r1 with
    | none => none
    | some (t2, r2) =>
      match decodeU64 r2 with
      | none => none
      | some (u1, r3) =>
        match decodeU64 r3 with
        | none => none
        | some (u2, r4) =>
          match decodeU64 r4 with
          | none => none
          | some (x1, r5) =>
            match decodeU64 r5 with
            | none => none
            | some (x2, r6) =>
              match decodeI32 r6 with
              | none => none
              | some (i, r7) => some (⟨(t1, t2), (u1, u2), (x1, x2), i⟩, r7)

def decodeDocs (bs : Bytes) : Option (List DocumentRaw) :=
  match decodeU64 bs with
  | none => none
  | some (n, r) => (decodeListAux decodeDoc n r).map (fun p => p.1)

/-- `SerializedIndex`: the three byte blobs. -/
structure SerializedIndex where
  inverted_index : Bytes
  documents : Bytes
  file_contents : Bytes
deriving DecidableEq, Repr

/-- The queryable state of a `RayonIndexer`. -/
structure RayonIndexerState where
  index : InvIndex
  documents : List DocumentRaw
  full_contents : Bytes

def get_serialized_inverted_index (st : RayonIndexerState) : Bytes :=
  encodeIndex st.index

def get_serialized_documents (st : RayonIndexerState) : Bytes :=
  encodeDocs st.documents

/-- `RayonIndexer::build_from_serialized`; the `.unwrap()` panics on a
decode failure, modelled by `none`. -/
def build_from_serialized (data : SerializedIndex) : Option RayonIndexerState :=
  match decodeIndex data.inverted_index with
  | none => none
  | some idx =>
    match decodeDocs data.documents with
    | none => none
    | some docs => some ⟨idx, docs, data.file_contents⟩

/-! ### Paths and the cache files on disk -/

/-- The component after the last `/` (Rust `Path::file_name`, for the
ordinary paths the program passes around). -/
def fileNameOf (p : Str) : Str :=
  (p.reverse.takeWhile (fun c => c ≠ '/')).reverse

def dirPartOf (p : Str) : Str := p.take (p.length - (fileNameOf p).length)

/-- Rust `Path::file_stem` on a file name: everything before the last
dot, unless the only dot starts the (hidden) file name. -/
def fileStemOf (name : Str) : Str :=
  let extLen := (name.reverse.takeWhile (fun c => c ≠ '.')).length
  if extLen = name.length then name
  else if name.length - extLen - 1 = 0 then name
  else name.take (name.length - extLen - 1)

/-- Rust `Path::with_extension`: replace (not append) the extension of
the file name; paths without a proper file name are returned unchanged
(`set_extension` returns `false` on them). -/
def with_extension (p : Str) (e : Str) : Str :=
  let name := fileNameOf p
  if name = [] ∨ name = ['.'] ∨ name = ['.', '.'] then p
  else dirPartOf p ++ fileStemOf name ++ (if e = [] then [] else '.' :: e)

/-- A file system: path, contents. -/
abbrev FileSys := List (Str × Bytes)

def fsRead (fs : FileSys) (p : Str) : Option Bytes :=
  (fs.find? (fun e => e.1 == p)).map (fun e => e.2)

/-- `open_mmap`: fails when the file is absent or has zero length. -/
def open_mmap (fs : FileSys) (p : Str) : Except Unit Bytes :=
  match fsRead fs p with
  | none => .error ()
  | some b => if b.length = 0 then .error () else .ok b

/-- `SerializedIndex::load_from_path`: memory-map the corpus at the
base path, then `fs::read` the `.idx` and `.dcm` siblings. -/
def load_from_path (fs : FileSys) (p : Str) : Except Unit SerializedIndex :=
  match open_mmap fs p with
  | .error e => .error e
  | .ok fc =>
    match fsRead fs (with_extension p (['i','d','x'])) with
    | none => .error ()
    | some idx =>
      match fsRead fs (with_extension p (['d','c','m'])) with
      | none => .error ()
      | some dcm => .ok ⟨idx, dcm, fc⟩

/-- The two sibling paths `load_from_path` reads. -/
def load_paths (p : Str) : Str × Str :=
  (with_extension p (['i','d','x']), with_extension p (['d','c','m']))

/-- The final destinations of `write_index_to_path` after the
`.tmp`-then-rename dance:
`base.with_extension("idx.tmp").with_extension("").with_extension("idx")`
and likewise for `dcm`. -/
def write_paths (p : Str) : Str × Str :=
  (with_extension (with_extension (with_extension p (['i','d','x','.','t','m','p'])) []) (['i','d','x']),
   with_extension (with_extension (with_extension p (['d','c','m','.','t','m','p'])) []) (['d','c','m']))

/-! ### The `ThreadPoolIndexer` and the trait's default methods -/

inductive IndexVariant where
  | singleThread (m : InvIndex)
  | multiThread (m : InvIndex)

structure ThreadPoolIndexerState where
  index : IndexVariant
  documents : List DocumentRaw
  full_contents : Bytes

/-- `DocumentIndexer::build_from_serialized` default body —
`panic!("Not implemented")` — which `ThreadPoolIndexer` does not
override. -/
def tp_build_from_serialized (st : ThreadPoolIndexerState) (data : SerializedIndex) :
    Except Str ThreadPoolIndexerState :=
  .error ("Not implemented".toList)

/-- `DocumentIndexer::get_serialized_inverted_index` default body for
`ThreadPoolIndexer`: `panic!("Not implemented")`. -/
def tp_get_serialized_inverted_index (st : ThreadPoolIndexerState) : Except Str Bytes :=
  .error ("Not implemented".toList)

/-- `DocumentIndexer::get_serialized_documents` default body for
`ThreadPoolIndexer`: `panic!("Not implemented")`. -/
def tp_get_serialized_documents (st : ThreadPoolIndexerState) : Except Str Bytes :=
  .error ("Not implemented".toList)

/-- Logical membership in a posting set: the index has key `t` and its
set contains `i`. -/
def memIds (m : InvIndex) (t : Str) (i : Int) : Prop :=
  ∃ s, idxGet m t = some s ∧ i ∈ s

/-- Every worker drained its ops and has no pending insertion: the
state a completed `pool.scope` join guarantees. -/
def dashFinished (st : DashState) : Bool :=
  st.workers.all (fun w => w.ops.isEmpty && w.pending.isNone)

/-- Apply an outstanding fresh-key insertion. -/
def applyPending (m : InvIndex) : Option (Str × Int) → InvIndex
  | some (k, i) => idxOverwrite m k [i]
  | none => m

/-- Sequential (uninterleaved) insertion of a token stream. -/
def seqInsert (m : InvIndex) (ops : List (Str × Int)) : InvIndex :=
  ops.foldl (fun m' p => idxInsertToken m' p.1 p.2) m

/-- A character that can appear in an emitted term: alphanumeric and
fixed under lowercasing (lowercase letters and digits). -/
def lowOK (c : Char) : Bool := isWordChar c && (lowerChar c == c)

/-- A character of a word inside the stemmer pipeline: emitted-term
characters plus the marked consonant `Y` of the prelude. -/
def midOK (c : Char) : Bool := lowOK c || (c == 'Y')

/-- `join(tokens, " ")` of the round-trip claim. -/
def joinSpace : List Str → Str
  | [] => []
  | [t] => t
  | t :: ts => t ++ ' ' :: joinSpace ts

theorem splitP_ne_nil (p : Char → Bool) (s : Str) : splitP p s ≠ [] := by
  induction s with
  | nil => simp [splitP]
  | cons c rest ih =>
    simp only [splitP]
    split
    · simp
    · cases h : splitP p rest with
      | nil => simp
      | cons s ss => simp

/-! ### Path lemmas -/

theorem fileName_decomp (p : Str) :
    p = (p.reverse.dropWhile (fun c => c ≠ '/')).reverse ++ fileNameOf p := by
  unfold fileNameOf
  conv_lhs => rw [← p.reverse_reverse,
    ← List.takeWhile_append_dropWhile (p := fun c => decide (c ≠ '/')) (l := p.reverse)]
  rw [List.reverse_append]

theorem take_sub_of_append (A B q : Str) (h : q = A ++ B) :
    q.take (q.length - B.length) = A := by
  subst h
  rw [List.length_append, Nat.add_sub_cancel, List.take_left]

theorem dirPartOf_eq (p : Str) :
    dirPartOf p = (p.reverse.dropWhile (fun c => c ≠ '/')).reverse := by
  unfold dirPartOf
  exact take_sub_of_append _ _ p (fileName_decomp p)

theorem dirPart_append_fileName (p : Str) : dirPartOf p ++ fileNameOf p = p := by
  rw [dirPartOf_eq]
  exact (fileName_decomp p).symm

theorem fileNameOf_append (p s : Str) (hs : ∀ c ∈ s, c ≠ '/') :
    fileNameOf (p ++ s) = fileNameOf p ++ s := by
  unfold fileNameOf
  rw [List.reverse_append, List.takeWhile_append]
  have hself : s.reverse.takeWhile (fun c => decide (c ≠ '/')) = s.reverse := by
    rw [List.takeWhile_eq_self_iff]
    intro c hc
    simpa using hs c (List.mem_reverse.mp hc)
  rw [hself]
  simp [List.reverse_append]

theorem dirPartOf_append (p s : Str) (hs : ∀ c ∈ s, c ≠ '/') :
    dirPartOf (p ++ s) = dirPartOf p := by
  unfold dirPartOf
  rw [fileNameOf_append p s hs, List.length_append, List.length_append]
  have h1 : p.length + s.length - ((fileNameOf p).length + s.length)
      = p.length - (fileNameOf p).length := by omega
  rw [h1, List.take_append_eq_append_take]
  have hfl : (fileNameOf p).length ≤ p.length := by
    conv_rhs => rw [← dirPart_append_fileName p]
    simp
  have h2 : p.length - (fileNameOf p).length - p.length = 0 := by omega
  rw [h2]
  simp

/-- No dot in `name` means `fileStemOf` is the identity. -/
theorem fileStemOf_nodot (name : Str) (h : ∀ c ∈ name, c ≠ '.') :
    fileStemOf name = name := by
  unfold fileStemOf
  have htw : name.reverse.takeWhile (fun c => decide (c ≠ '.')) = name.reverse := by
    rw [List.takeWhile_eq_self_iff]
    intro c hc
    simpa using h c (List.mem_reverse.mp hc)
  rw [htw, List.length_reverse, if_pos rfl]

/-- `with_extension` on a path whose file name has no dot appends
`.e`. -/
theorem with_extension_nodot (p e : Str) (h1 : fileNameOf p ≠ [])
    (h2 : ∀ c ∈ fileNameOf p, c ≠ '.') (he : e ≠ []) :
    with_extension p e = p ++ '.' :: e := by
  have hcond : ¬(fileNameOf p = [] ∨ fileNameOf p = ['.'] ∨ fileNameOf p = ['.', '.']) := by
    push_neg
    refine ⟨h1, ?_, ?_⟩
    · intro h
      exact h2 '.' (h ▸ List.mem_singleton.mpr rfl) rfl
    · intro h
      exact h2 '.' (h ▸ List.mem_cons_self _ _) rfl
  simp only [with_extension]
  rw [if_neg hcond, if_neg he, fileStemOf_nodot _ h2, dirPart_append_fileName]

/-- `with_extension` on `p ++ u ++ "." ++ v` (no dot in `v`, no slash
in the suffix, dotless nonempty file name of `p`) strips back to
`p ++ u` and appends the new extension. -/
theorem with_extension_split (p u v e : Str) (h1 : fileNameOf p ≠ [])
    (h2 : ∀ c ∈ fileNameOf p, c ≠ '.')
    (hsl : ∀ c ∈ u ++ '.' :: v, c ≠ '/') (hv : ∀ c ∈ v, c ≠ '.') :
    with_extension (p ++ (u ++ '.' :: v)) e
      = p ++ u ++ (if e = [] then [] else '.' :: e) := by
  have hname : fileNameOf (p ++ (u ++ '.' :: v)) = fileNameOf p ++ (u ++ '.' :: v) :=
    fileNameOf_append p _ hsl
  have hdir : dirPartOf (p ++ (u ++ '.' :: v)) = dirPartOf p :=
    dirPartOf_append p _ hsl
  obtain ⟨c0, nrest, hc0⟩ : ∃ c0 nrest, fileNameOf p = c0 :: nrest := by
    cases hfn : fileNameOf p with
    | nil => exact absurd hfn h1
    | cons a l => exact ⟨a, l, rfl⟩
  have hc0dot : c0 ≠ '.' := h2 c0 (by rw [hc0]; exact List.mem_cons_self _ _)
  have hcond : ¬(fileNameOf p ++ (u ++ '.' :: v) = [] ∨
      fileNameOf p ++ (u ++ '.' :: v) = ['.'] ∨
      fileNameOf p ++ (u ++ '.' :: v) = ['.', '.']) := by
    push_neg
    rw [hc0]
    refine ⟨by simp, ?_, ?_⟩
    · intro h
      rw [List.cons_append] at h
      exact hc0dot (List.head_eq_of_cons_eq h)
    · intro h
      rw [List.cons_append] at h
      exact hc0dot (List.head_eq_of_cons_eq h)
  have hstem : fileStemOf (fileNameOf p ++ (u ++ '.' :: v)) = fileNameOf p ++ u := by
    unfold fileStemOf
    have hrev : (fileNameOf p ++ (u ++ '.' :: v)).reverse
        = v.reverse ++ '.' :: (u.reverse ++ (fileNameOf p).reverse) := by
      simp
    have hself : v.reverse.takeWhile (fun c => decide (c ≠ '.')) = v.reverse := by
      rw [List.takeWhile_eq_self_iff]
      intro c hc
      simpa using hv c (List.mem_reverse.mp hc)
    have htw : ((fileNameOf p ++ (u ++ '.' :: v)).reverse).takeWhile
        (fun c => decide (c ≠ '.')) = v.reverse := by
      rw [hrev, List.takeWhile_append, hself, if_pos rfl, List.takeWhile_cons]
      norm_num
    rw [htw, List.length_reverse]
    have hlen : (fileNameOf p ++ (u ++ '.' :: v)).length
        = (fileNameOf p).length + u.length + 1 + v.length := by
      simp only [List.length_append, List.length_cons]
      omega
    have hpos : 0 < (fileNameOf p).length := by
      rw [hc0]
      simp
    rw [hlen, if_neg (by omega), if_neg (by omega)]
    have hcut : (fileNameOf p).length + u.length + 1 + v.length - v.length - 1
        = (fileNameOf p).length + u.length := by omega
    rw [hcut, List.take_append_eq_append_take, List.take_of_length_le (by omega)]
    have h3 : (fileNameOf p).length + u.length - (fileNameOf p).length = u.length := by
      omega
    rw [h3, List.take_append_eq_append_take, List.take_length, Nat.sub_self]
    simp
  simp only [with_extension]
  rw [hname, hdir, if_neg hcond, hstem,
    ← List.append_assoc (dirPartOf p) (fileNameOf p) u, dirPart_append_fileName]

/-! ### Claim theorems: persistence paths (C7) -/

/-- C7 counterexample: for the base path `data.xml`, which already
carries an extension, the cache artifacts live at `data.idx` and
`data.dcm` (`Path::with_extension` replaces the extension), not at the
appended names `data.xml.idx` / `data.xml.dcm` the claim requires. -/
theorem c7_counterexample :
    load_paths ("data.xml".toList)
        = ("data.idx".toList, "data.dcm".toList) ∧
      write_paths ("data.xml".toList) = load_paths ("data.xml".toList) ∧
      ¬ load_paths ("data.xml".toList)
        = ("data.xml.idx".toList, "data.xml.dcm".toList) := by
  refine ⟨by decide, by decide, by decide⟩

/-- C7 (amended): the corpus stays at `P`; the documents and inverted
index live at `with_extension(P, "dcm")` / `with_extension(P, "idx")`,
which *replace* a final extension rather than appending; when the file
name of `P` carries no dot this appends `.dcm` / `.idx`, and the
post-rename write targets coincide with the load paths. -/
theorem c7_sibling_paths (p : Str) (h1 : fileNameOf p ≠ [])
    (h2 : ∀ c ∈ fileNameOf p, c ≠ '.') :
    load_paths p = (p ++ '.' :: ['i','d','x'], p ++ '.' :: ['d','c','m']) ∧
      write_paths p = load_paths p := by
  have hidx := with_extension_nodot p (['i','d','x']) h1 h2 (by decide)
  have hdcm := with_extension_nodot p (['d','c','m']) h1 h2 (by decide)
  constructor
  · unfold load_paths
    rw [hidx, hdcm]
  · unfold write_paths load_paths
    have hidxtmp := with_extension_nodot p (['i','d','x','.','t','m','p']) h1 h2 (by decide)
    have hdcmtmp := with_extension_nodot p (['d','c','m','.','t','m','p']) h1 h2 (by decide)
    have b1 : ('.' : Char) :: ['i','d','x','.','t','m','p'] = ('.' :: ['i','d','x']) ++ '.' :: ['t','m','p'] := by
      decide
    have b2 : ('.' : Char) :: ['d','c','m','.','t','m','p'] = ('.' :: ['d','c','m']) ++ '.' :: ['t','m','p'] := by
      decide
    have strip1 : with_extension (p ++ '.' :: ['i','d','x','.','t','m','p']) [] = p ++ '.' :: ['i','d','x'] := by
      rw [show p ++ ('.' : Char) :: ['i','d','x','.','t','m','p']
            = p ++ (('.' :: ['i','d','x']) ++ '.' :: ['t','m','p']) by rw [b1]]
      rw [with_extension_split p ('.' :: ['i','d','x']) (['t','m','p']) [] h1 h2
        (by decide) (by decide), if_pos rfl, List.append_nil]
    have strip2 : with_extension (p ++ '.' :: ['d','c','m','.','t','m','p']) [] = p ++ '.' :: ['d','c','m'] := by
      rw [show p ++ ('.' : Char) :: ['d','c','m','.','t','m','p']
            = p ++ (('.' :: ['d','c','m']) ++ '.' :: ['t','m','p']) by rw [b2]]
      rw [with_extension_split p ('.' :: ['d','c','m']) (['t','m','p']) [] h1 h2
        (by decide) (by decide), if_pos rfl, List.append_nil]
    have fin1 : with_extension (p ++ '.' :: ['i','d','x']) (['i','d','x'])
        = p ++ '.' :: ['i','d','x'] := by
      rw [show p ++ ('.' : Char) :: ['i','d','x'] = p ++ ([] ++ '.' :: ['i','d','x']) by simp]
      rw [with_extension_split p [] (['i','d','x']) (['i','d','x']) h1 h2
        (by decide) (by decide), if_neg (by decide), List.append_nil]
      simp
    have fin2 : with_extension (p ++ '.' :: ['d','c','m']) (['d','c','m'])
        = p ++ '.' :: ['d','c','m'] := by
      rw [show p ++ ('.' : Char) :: ['d','c','m'] = p ++ ([] ++ '.' :: ['d','c','m']) by simp]
      rw [with_extension_split p [] (['d','c','m']) (['d','c','m']) h1 h2
        (by decide) (by decide), if_neg (by decide), List.append_nil]
      simp
    rw [hidxtmp, hdcmtmp, strip1, strip2, fin1, fin2, hidx, hdcm]

/-- C7 witness: the amended path theorem applied to the dotless base
path `wiki`. -/
theorem c7_sibling_paths_witness :
    fileNameOf ("wiki".toList) ≠ [] ∧
      load_paths ("wiki".toList)
        = ("wiki".toList ++ '.' :: ['i','d','x'], "wiki".toList ++ '.' :: ['d','c','m']) ∧
      write_paths ("wiki".toList) = load_paths ("wiki".toList) := by
  have h := c7_sibling_paths ("wiki".toList) (by decide) (by decide)
  exact ⟨by decide, h.1, h.2⟩

/-! ### Claim theorems: load_from_path error behaviour (C8) -/

/-- C8: `load_from_path` fails exactly when the corpus file is absent
or empty or a sibling `.idx`/`.dcm` file is unreadable, and on success
returns the three byte blobs unchanged. -/
theorem c8_load_from_path_spec (fs : FileSys) (p : Str) :
    (fsRead fs p = none → load_from_path fs p = .error ()) ∧
    (∀ b, fsRead fs p = some b → b.length = 0 → load_from_path fs p = .error ()) ∧
    (∀ b, fsRead fs p = some b → b.length ≠ 0 →
      fsRead fs (load_paths p).1 = none → load_from_path fs p = .error ()) ∧
    (∀ b ib, fsRead fs p = some b → b.length ≠ 0 →
      fsRead fs (load_paths p).1 = some ib → fsRead fs (load_paths p).2 = none →
      load_from_path fs p = .error ()) ∧
    (∀ b ib db, fsRead fs p = some b → b.length ≠ 0 →
      fsRead fs (load_paths p).1 = some ib → fsRead fs (load_paths p).2 = some db →
      load_from_path fs p = .ok ⟨ib, db, b⟩) := by
  refine ⟨fun h => ?_, fun b hb h0 => ?_, fun b hb h0 hi => ?_,
    fun b ib hb h0 hi hd => ?_, fun b ib db hb h0 hi hd => ?_⟩
  · simp [load_from_path, open_mmap, h]
  · simp [load_from_path, open_mmap, hb, h0]
  · simp only [load_paths] at hi
    simp [load_from_path, open_mmap, hb, h0, hi]
  · simp only [load_paths] at hi hd
    simp [load_from_path, open_mmap, hb, h0, hi, hd]
  · simp only [load_paths] at hi hd
    simp [load_from_path, open_mmap, hb, h0, hi, hd]

/-- C8 witness: a concrete file system exercising both the success
branch and the empty-corpus rejection. -/
theorem c8_load_from_path_witness :
    load_from_path
        [(['w'], [10, 20]), ("w.idx".toList, [7]), ("w.dcm".toList, [8])] ['w']
      = .ok ⟨[7], [8], [10, 20]⟩ ∧
    load_from_path [(['w'], []), ("w.idx".toList, [7]), ("w.dcm".toList, [8])] ['w']
      = .error () := by
  constructor
  · exact (c8_load_from_path_spec _ ['w']).2.2.2.2 [10, 20] [7] [8] (by decide)
      (by decide) (by decide) (by decide)
  · exact (c8_load_from_path_spec _ ['w']).2.1 [] (by decide) (by decide)

/-! ### Chunker lemmas (C2, C5) -/

theorem gncpFuel_ge (bs : Bytes) :
    ∀ fuel i t, gncpFuel bs fuel i = some t → i ≤ t := by
  intro fuel
  induction fuel with
  | zero =>
    intro i t h
    injection h with h'
    omega
  | succ n ih =>
    intro i t h
    unfold gncpFuel at h
    by_cases hi : i < bs.length
    · rw [if_pos hi] at h
      by_cases hw : i + 4 > bs.length
      · rw [if_pos hw] at h
        exact absurd h (by simp)
      · rw [if_neg hw] at h
        by_cases hv : utf8Valid ((bs.drop i).take 4)
        · rw [if_pos hv] at h
          injection h with h'
          omega
        · rw [if_neg hv] at h
          have := ih (i + 1) t h
          omega
    · rw [if_neg hi] at h
      injection h with h'
      omega

theorem gncp_ge (bs : Bytes) (i t : Nat)
    (h : get_next_codepoint_idx bs i = some t) : i ≤ t :=
  gncpFuel_ge bs _ i t h

theorem gncp_of_le (bs : Bytes) (i : Nat) (h : bs.length ≤ i) :
    get_next_codepoint_idx bs i = some i := by
  unfold get_next_codepoint_idx
  have h0 : bs.length - i = 0 := by omega
  rw [h0]
  rfl

theorem gncp_panic (bs : Bytes) (i : Nat) (h1 : i < bs.length)
    (h2 : bs.length < i + 4) : get_next_codepoint_idx bs i = none := by
  unfold get_next_codepoint_idx
  obtain ⟨f, hf⟩ : ∃ f, bs.length - i = f + 1 := ⟨bs.length - i - 1, by omega⟩
  rw [hf]
  unfold gncpFuel
  rw [if_pos h1, if_pos (by omega)]

theorem sliceStr_some (bs : Bytes) (a b : Nat) (s : Bytes)
    (h : sliceStr bs a b = some s) :
    a ≤ b ∧ b ≤ bs.length ∧ s = (bs.take b).drop a := by
  unfold sliceStr at h
  split at h
  case isTrue hg =>
    injection h with h'
    simp only [Bool.and_eq_true, decide_eq_true_eq] at hg
    exact ⟨hg.1.1.1, hg.1.1.2, h'.symm⟩
  case isFalse => exact absurd h (by simp)

theorem dropTake_append_drop (bs : Bytes) (p e : Nat) (hpe : p ≤ e)
    (hel : e ≤ bs.length) :
    (bs.take e).drop p ++ bs.drop e = bs.drop p := by
  have hlen : (bs.take e).length = e := by
    rw [List.length_take]
    omega
  calc (bs.take e).drop p ++ bs.drop e
      = (bs.take e).drop p ++ (bs.drop e).drop (p - (bs.take e).length) := by
        rw [hlen, Nat.sub_eq_zero_of_le hpe, List.drop_zero]
    _ = (bs.take e ++ bs.drop e).drop p := List.drop_append_eq_append_drop.symm
    _ = bs.drop p := by rw [List.take_append_drop]

/-- The loop of `split_contents` loses no byte: with the invariant that
the remaining fuel times (chunk size + 6) covers the rest of the input
— which the top-level call establishes — a successful run of the loop
emits exactly the bytes from `prev` to the end. -/
theorem splitLoop_concat (bs tag : Bytes) (cps : Nat) :
    ∀ k prev L, bs.length ≤ prev + (k + 1) * cps + 6 * k →
      splitLoop bs tag cps (k + 1) prev = .ok L →
      (L.map ContentsSplit.data).flatten = bs.drop prev := by
  intro k
  induction k with
  | zero =>
    intro prev L hH hok
    unfold splitLoop at hok
    cases hg : get_next_codepoint_idx bs (prev + cps) with
    | none => simp [hg] at hok
    | some t =>
      simp only [hg] at hok
      have hge := gncp_ge bs (prev + cps) t hg
      have hlen : bs.length ≤ t := by
        have : (0 + 1) * cps = cps := by ring
        omega
      rw [if_pos hlen] at hok
      cases hs : sliceStr bs prev bs.length with
      | none => simp [hs] at hok
      | some s =>
        simp only [hs] at hok
        injection hok with hok'
        obtain ⟨hpb, _, hseq⟩ := sliceStr_some bs prev bs.length s hs
        subst hok'
        simp [hseq, List.take_length]
  | succ k ih =>
    intro prev L hH hok
    unfold splitLoop at hok
    cases hg : get_next_codepoint_idx bs (prev + cps) with
    | none => simp [hg] at hok
    | some t =>
      simp only [hg] at hok
      have hge := gncp_ge bs (prev + cps) t hg
      by_cases hlen : bs.length ≤ t
      · rw [if_pos hlen] at hok
        cases hs : sliceStr bs prev bs.length with
        | none => simp [hs] at hok
        | some s =>
          simp only [hs] at hok
          injection hok with hok'
          obtain ⟨hpb, _, hseq⟩ := sliceStr_some bs prev bs.length s hs
          subst hok'
          simp [hseq, List.take_length]
      · rw [if_neg hlen] at hok
        push_neg at hlen
        cases hr : sliceStr bs t bs.length with
        | none => simp [hr] at hok
        | some restStr =>
          simp only [hr] at hok
          cases hf : findSub restStr tag with
          | some idx =>
            simp only [hf] at hok
            cases hs : sliceStr bs prev (t + idx + 6) with
            | none => simp [hs] at hok
            | some s =>
              simp only [hs] at hok
              cases hrec : splitLoop bs tag cps (k + 1) (t + idx + 6) with
              | error e => simp [hrec] at hok
              | ok more =>
                simp only [hrec] at hok
                injection hok with hok'
                subst hok'
                obtain ⟨hpe, hel, hseq⟩ := sliceStr_some bs prev (t + idx + 6) s hs
                have hH' : bs.length ≤ (t + idx + 6) + (k + 1) * cps + 6 * k := by
                  have e1 : (k + 1 + 1) * cps = (k + 1) * cps + cps := by ring
                  omega
                have hmore := ih (t + idx + 6) more hH' hrec
                simp only [List.map_cons, List.flatten_cons]
                rw [hseq, hmore, dropTake_append_drop bs prev (t + idx + 6) hpe hel]
          | none =>
            simp only [hf] at hok
            cases hs : sliceStr bs prev (bs.length - 1) with
            | none => simp [hs] at hok
            | some s =>
              simp only [hs] at hok
              rcases Nat.eq_zero_or_pos cps with hc0 | hcpos
              · have hgnone :
                    get_next_codepoint_idx bs (bs.length - 1 + cps) = none := by
                  subst hc0
                  apply gncp_panic <;> omega
                have hrec : splitLoop bs tag cps (k + 1) (bs.length - 1) = .error () := by
                  unfold splitLoop
                  simp [hgnone]
                rw [hrec] at hok
                simp at hok
              · have hgt :
                    get_next_codepoint_idx bs (bs.length - 1 + cps)
                      = some (bs.length - 1 + cps) :=
                  gncp_of_le _ _ (by omega)
                cases hs2 : sliceStr bs (bs.length - 1) bs.length with
                | none =>
                  have hrec : splitLoop bs tag cps (k + 1) (bs.length - 1) = .error () := by
                    unfold splitLoop
                    simp only [hgt]
                    rw [if_pos (by omega)]
                    simp [hs2]
                  rw [hrec] at hok
                  simp at hok
                | some s2 =>
                  have hrec : splitLoop bs tag cps (k + 1) (bs.length - 1)
                      = .ok [⟨bs.length - 1, s2⟩] := by
                    unfold splitLoop
                    simp only [hgt]
                    rw [if_pos (by omega)]
                    simp [hs2]
                  rw [hrec] at hok
                  simp only [] at hok
                  injection hok with hok'
                  subst hok'
                  obtain ⟨hpe, hel, hseq⟩ := sliceStr_some bs prev (bs.length - 1) s hs
                  obtain ⟨hpe2, hel2, hseq2⟩ :=
                    sliceStr_some bs (bs.length - 1) bs.length s2 hs2
                  simp only [List.map_cons, List.map_nil, List.flatten_cons,
                    List.flatten_nil, List.append_nil]
                  rw [hseq, hseq2, List.take_length,
                    dropTake_append_drop bs prev (bs.length - 1) hpe hel]

/-- C2 counterexample: on the five-byte corpus `abcde` with two chunks,
`get_next_codepoint_idx` slices `raw_bytes[2..6]` out of bounds and the
code panics, so no slices at all are returned (the claim asserts the
concatenation property for every input and `num_chunks >= 1`). -/
theorem c2_counterexample :
    split_contents [97, 98, 99, 100, 101] [60, 47, 100, 111, 99, 62] 2 = .error () := by
  rfl

/-- C2 (amended): whenever `split_contents` returns normally (no
panic), the concatenation of the returned slices, in order, is exactly
the input — no byte is dropped or duplicated, including when the
boundary tag is not found after a probe point and including the final
chunk. -/
theorem c2_split_concat (bs tag : Bytes) (n : Nat) (L : List ContentsSplit)
    (h : split_contents bs tag n = .ok L) :
    (L.map ContentsSplit.data).flatten = bs := by
  unfold split_contents at h
  by_cases h0 : n = 0
  · rw [if_pos h0] at h
    exact absurd h (by simp)
  · rw [if_neg h0] at h
    by_cases h1 : n ≤ 1
    · rw [if_pos h1] at h
      injection h with h'
      subst h'
      simp
    · rw [if_neg h1] at h
      obtain ⟨m, rfl⟩ : ∃ m, n = m + 1 + 1 := ⟨n - 2, by omega⟩
      have hdm := Nat.div_add_mod bs.length (m + 1 + 1)
      have hmod : bs.length % (m + 1 + 1) < m + 1 + 1 := Nat.mod_lt _ (by omega)
      have hH : bs.length ≤ 0 + (m + 1 + 1) * (bs.length / (m + 1 + 1)) + 6 * (m + 1) := by
        omega
      have := splitLoop_concat bs tag (bs.length / (m + 1 + 1)) (m + 1) 0 L hH h
      simpa using this

/-- C2 witness: the two-document corpus `<doc>aa</doc><doc>bb</doc>`
split in two chunks; the slices concatenate back to the corpus. -/
theorem c2_split_concat_witness :
    ((([ContentsSplit.mk 0
          [60, 100, 111, 99, 62, 97, 97, 60, 47, 100, 111, 99, 62,
           60, 100, 111, 99, 62, 98, 98, 60, 47, 100, 111, 99, 62],
        ContentsSplit.mk 26 []]).map ContentsSplit.data).flatten
      = [60, 100, 111, 99, 62, 97, 97, 60, 47, 100, 111, 99, 62,
         60, 100, 111, 99, 62, 98, 98, 60, 47, 100, 111, 99, 62]) :=
  c2_split_concat
    [60, 100, 111, 99, 62, 97, 97, 60, 47, 100, 111, 99, 62,
     60, 100, 111, 99, 62, 98, 98, 60, 47, 100, 111, 99, 62]
    [60, 47, 100, 111, 99, 62] 2 _ (by rfl)

/-- C5 counterexample: with the two-byte tag `bc` and two chunks on a
20-byte corpus, the probe realigns to `try = 10`, the tag is found at
`index = 2`, and the emitted chunk ends at `10 + 2 + 6 = 18` — the
hard-coded constant 6 — not at `try + index + len(tag) = 14` as the
claim asserts for every tag argument. -/
theorem c5_counterexample :
    get_next_codepoint_idx
        [97, 97, 97, 97, 97, 97, 97, 97, 97, 97, 97, 97, 98, 99, 97, 97, 97, 97, 97, 97]
        (0 + 10) = some 10 ∧
      findSub
        [97, 97, 98, 99, 97, 97, 97, 97, 97, 97] [98, 99] = some 2 ∧
      split_contents
        [97, 97, 97, 97, 97, 97, 97, 97, 97, 97, 97, 97, 98, 99, 97, 97, 97, 97, 97, 97]
        [98, 99] 2
        = .ok [⟨0, [97, 97, 97, 97, 97, 97, 97, 97, 97, 97, 97, 97, 98, 99, 97, 97, 97, 97]⟩,
               ⟨18, [97, 97]⟩] ∧
      (18 : Nat) ≠ 10 + 2 + ([98, 99] : Bytes).length := by
  refine ⟨by decide, by decide, by rfl, by decide⟩

/-- C5 (amended): every non-final chunk whose probe search finds the
boundary tag ends at `try + index + 6` — the hard-coded byte length of
the literal `</doc>` — which equals `try + index + len(boundary_tag)`
exactly when the tag is 6 bytes long (as it always is for the only tag
the callers pass). -/
theorem c5_chunk_end_at_tag (bs tag : Bytes) (cps k prev t idx : Nat)
    (L : List ContentsSplit) (htag : tag.length = 6)
    (hg : get_next_codepoint_idx bs (prev + cps) = some t) (ht : t < bs.length)
    (hf : findSub ((bs.take bs.length).drop t) tag = some idx)
    (hok : splitLoop bs tag cps (k + 1) prev = .ok L) :
    ∃ s rest, L = ⟨prev, s⟩ :: rest ∧
      s = (bs.take (t + idx + tag.length)).drop prev := by
  unfold splitLoop at hok
  simp only [hg] at hok
  rw [if_neg (by omega)] at hok
  cases hr : sliceStr bs t bs.length with
  | none => simp [hr] at hok
  | some restStr =>
    simp only [hr] at hok
    obtain ⟨_, _, hreq⟩ := sliceStr_some bs t bs.length restStr hr
    rw [← hreq] at hf
    simp only [hf] at hok
    cases hs : sliceStr bs prev (t + idx + 6) with
    | none => simp [hs] at hok
    | some s =>
      simp only [hs] at hok
      cases hrec : splitLoop bs tag cps k (t + idx + 6) with
      | error e => simp [hrec] at hok
      | ok more =>
        simp only [hrec] at hok
        injection hok with hok'
        subst hok'
        obtain ⟨_, _, hseq⟩ := sliceStr_some bs prev (t + idx + 6) s hs
        exact ⟨s, more, rfl, by rw [htag, hseq]⟩

/-- C5 witness: on the two-document demo corpus with the real 6-byte
`</doc>` tag, the first chunk ends at `try + index + len(tag)`. -/
theorem c5_chunk_end_at_tag_witness :
    ∃ s rest,
      ([ContentsSplit.mk 0
          [60, 100, 111, 99, 62, 97, 97, 60, 47, 100, 111, 99, 62,
           60, 100, 111, 99, 62, 98, 98, 60, 47, 100, 111, 99, 62],
        ContentsSplit.mk 26 []] : List ContentsSplit) = ⟨0, s⟩ :: rest ∧
      s = (([60, 100, 111, 99, 62, 97, 97, 60, 47, 100, 111, 99, 62,
             60, 100, 111, 99, 62, 98, 98, 60, 47, 100, 111, 99, 62] : Bytes).take
          (13 + 7 + ([60, 47, 100, 111, 99, 62] : Bytes).length)).drop 0 :=
  c5_chunk_end_at_tag
    [60, 100, 111, 99, 62, 97, 97, 60, 47, 100, 111, 99, 62,
     60, 100, 111, 99, 62, 98, 98, 60, 47, 100, 111, 99, 62]
    [60, 47, 100, 111, 99, 62] 13 1 0 13 7 _ (by decide) (by decide) (by decide)
    (by decide) (by rfl)

/-! ### Document-id lemmas (C1) -/

theorem wrapI32_eq (x : Int) (h1 : -2 ^ 31 ≤ x) (h2 : x < 2 ^ 31) : wrapI32 x = x := by
  unfold wrapI32
  omega

theorem runSched_fst (s : List Nat) (c : Int) :
    (runSched s c).map Prod.fst = s := by
  induction s generalizing c with
  | nil => rfl
  | cons t ts ih => simp [runSched, ih]

theorem flatMap_congr_left (l : List α) (f g : α → List β)
    (h : ∀ a ∈ l, f a = g a) : l.flatMap f = l.flatMap g := by
  induction l with
  | nil => rfl
  | cons x xs ih =>
    simp only [List.flatMap_cons]
    rw [h x (List.mem_cons_self _ _), ih (fun a ha => h a (List.mem_cons_of_mem _ ha))]

/-- Any interleaving of `n` fetch-adds starting at `0 ≤ c` with
`c + n ≤ 2^31` hands out exactly the ids `c, c+1, …, c+n-1`. -/
theorem runSched_snd (s : List Nat) (c : Int) (h0 : 0 ≤ c)
    (h : c + s.length ≤ 2 ^ 31) :
    (runSched s c).map Prod.snd
      = (List.range s.length).map (fun j => c + Int.ofNat j) := by
  induction s generalizing c with
  | nil => rfl
  | cons t ts ih =>
    simp only [runSched, List.map_cons, List.length_cons]
    rw [List.range_succ_eq_map]
    simp only [List.map_cons, List.map_map, List.cons.injEq]
    constructor
    · simp
    cases ts with
    | nil => rfl
    | cons t' ts' =>
      have hw : wrapI32 (c + 1) = c + 1 := by
        apply wrapI32_eq <;> simp only [List.length_cons] at h <;> omega
      rw [hw, ih (c + 1) (by omega) (by simp only [List.length_cons] at h ⊢; omega)]
      apply List.map_congr_left
      intro a _
      simp only [Function.comp]
      have : Int.ofNat (Nat.succ a) = Int.ofNat a + 1 := by
        simp [Int.ofNat_succ]
      rw [this]
      ring

theorem blockIds_length (run : List (Nat × Int)) (t : Nat) :
    (blockIds run t).length = (run.map Prod.fst).count t := by
  unfold blockIds
  rw [List.length_map, ← List.countP_eq_length_filter, List.count_eq_countP,
    List.countP_map]
  rfl

theorem blockIds_filter_ne (run : List (Nat × Int)) (t k : Nat) (h : t ≠ k) :
    blockIds (run.filter (fun e => !(e.1 == k))) t = blockIds run t := by
  unfold blockIds
  rw [List.filter_filter]
  congr 1
  apply List.filter_congr
  intro e _
  by_cases he : e.1 = t
  · simp [he, h]
  · simp [he]

/-- Distributing the issue-order id list to per-thread blocks and
concatenating the blocks permutes the issue order. -/
theorem flatMap_blockIds_perm (k : Nat) :
    ∀ run : List (Nat × Int), (∀ p ∈ run, p.1 < k) →
      ((List.range k).flatMap (fun t => blockIds run t)).Perm (run.map Prod.snd) := by
  induction k with
  | zero =>
    intro run hlt
    cases run with
    | nil => simp
    | cons p ps => exact absurd (hlt p (List.mem_cons_self _ _)) (by omega)
  | succ k ih =>
    intro run hlt
    rw [List.range_succ, List.flatMap_append]
    have hb : ([k].flatMap (fun t => blockIds run t)) = blockIds run k := by
      simp
    rw [hb]
    have hcongr : (List.range k).flatMap (fun t => blockIds run t)
        = (List.range k).flatMap
            (fun t => blockIds (run.filter (fun e => !(e.1 == k))) t) := by
      apply flatMap_congr_left
      intro t ht
      have htk : t < k := List.mem_range.mp ht
      exact (blockIds_filter_ne run t k (by omega)).symm
    rw [hcongr]
    have hih := ih (run.filter (fun e => !(e.1 == k)))
      (by
        intro p hp
        obtain ⟨hmem, hne⟩ := List.mem_filter.mp hp
        have := hlt p hmem
        simp only [Bool.not_eq_true', beq_eq_false_iff_ne] at hne
        omega)
    refine (hih.append (List.Perm.refl (blockIds run k))).trans ?_
    unfold blockIds
    rw [← List.map_append]
    refine List.Perm.map _ ?_
    exact List.Perm.trans List.perm_append_comm
      (List.filter_append_perm (fun e => (e.1 == k)) run)

theorem zipWith_const_right (l1 : List α) (l2 : List β)
    (h : l1.length = l2.length) : List.zipWith (fun _ b => b) l1 l2 = l2 := by
  induction l1 generalizing l2 with
  | nil =>
    cases l2 with
    | nil => rfl
    | cons b bs => simp at h
  | cons a as ih =>
    cases l2 with
    | nil => simp at h
    | cons b bs =>
      simp only [List.zipWith_cons_cons]
      rw [ih bs (by simpa using h)]

theorem stampDocs_ids (pre : List PreDoc) (ids : List Int)
    (h : pre.length = ids.length) :
    (stampDocs pre ids).map DocumentRaw.id = ids := by
  unfold stampDocs
  rw [List.map_zipWith]
  exact zipWith_const_right pre ids h

/-- The ids of the concatenated document table are a permutation of the
issue-order id sequence. -/
theorem buildTable_ids_perm (payloads : List (List PreDoc)) (sched : List Nat)
    (hth : ∀ t ∈ sched, t < payloads.length)
    (hcount : ∀ t ∈ List.range payloads.length,
      (payloads.getD t []).length = sched.count t) :
    ((buildTable payloads sched).map DocumentRaw.id).Perm
      ((runSched sched 0).map Prod.snd) := by
  unfold buildTable
  rw [List.map_flatMap]
  have heq : (List.range payloads.length).flatMap
        (fun t => (stampDocs (payloads.getD t []) (blockIds (runSched sched 0) t)).map
          DocumentRaw.id)
      = (List.range payloads.length).flatMap (fun t => blockIds (runSched sched 0) t) := by
    apply flatMap_congr_left
    intro t ht
    apply stampDocs_ids
    rw [hcount t ht, blockIds_length, runSched_fst]
  rw [heq]
  apply flatMap_blockIds_perm
  intro p hp
  have : p.1 ∈ (runSched sched 0).map Prod.fst := List.mem_map_of_mem Prod.fst hp
  rw [runSched_fst] at this
  exact hth p.1 this

/-- A sort of documents whose ids are a permutation of `0..n-1` puts
the record with id `i` at position `i`. -/
theorem sortDocs_get_id (l : List DocumentRaw) (n : Nat)
    (hperm : (l.map DocumentRaw.id).Perm ((List.range n).map Int.ofNat)) :
    ∀ i, ∀ h : i < (sortDocs l).length, ((sortDocs l).get ⟨i, h⟩).id = i := by
  haveI : IsTotal DocumentRaw (fun a b => a.id ≤ b.id) :=
    ⟨fun a b => Int.le_total a.id b.id⟩
  haveI : IsTrans DocumentRaw (fun a b => a.id ≤ b.id) :=
    ⟨fun _ _ _ hab hbc => le_trans hab hbc⟩
  have hp1 : ((sortDocs l).map DocumentRaw.id).Perm ((List.range n).map Int.ofNat) :=
    ((List.perm_insertionSort _ l).map DocumentRaw.id).trans hperm
  have hs1 : List.Sorted (· ≤ ·) ((sortDocs l).map DocumentRaw.id) := by
    apply List.pairwise_map.mpr
    exact List.sorted_insertionSort _ l
  have hs2 : List.Sorted (· ≤ ·) ((List.range n).map Int.ofNat) := by
    apply List.pairwise_map.mpr
    exact (List.sorted_le_range n).imp (fun h => Int.ofNat_le.mpr h)
  have heq := List.eq_of_perm_of_sorted hp1 hs1 hs2
  intro i h
  have hmaplen : ((sortDocs l).map DocumentRaw.id).length = (sortDocs l).length := by
    simp
  have hlen : (sortDocs l).length = n := by
    have h2 := congrArg List.length heq
    simp only [List.length_map, List.length_range] at h2
    exact h2
  have hi1 : i < ((sortDocs l).map DocumentRaw.id).length := by simpa using h
  have h1 := List.getElem_of_eq heq hi1
  rw [List.getElem_map, List.getElem_map, List.getElem_range] at h1
  simpa [List.get_eq_getElem] using h1

/-- C1: on a fresh indexer, for every interleaving of the parser
threads' `fetch_add(1, SeqCst)` calls (the schedule `sched`), every
parser output (`payloads`), and every arrival order of the per-thread
document vectors (`allDocs` is any permutation of the concatenated
table), as long as at most `2^31` documents are produced (no `i32`
wrap), the sorted document table has `documents[i].id = i` for every
position `i`, and its length is the number of parsed documents. -/
theorem c1_document_table_ids (payloads : List (List PreDoc)) (sched : List Nat)
    (allDocs : List DocumentRaw)
    (hth : ∀ t ∈ sched, t < payloads.length)
    (hcount : ∀ t ∈ List.range payloads.length,
      (payloads.getD t []).length = sched.count t)
    (hperm : allDocs.Perm (buildTable payloads sched))
    (hbound : sched.length ≤ 2 ^ 31) :
    (sortDocs allDocs).length = sched.length ∧
      ∀ i, ∀ h : i < (sortDocs allDocs).length, ((sortDocs allDocs).get ⟨i, h⟩).id = i := by
  have hids : ((allDocs.map DocumentRaw.id)).Perm
      ((List.range sched.length).map Int.ofNat) := by
    refine ((hperm.map DocumentRaw.id).trans
      (buildTable_ids_perm payloads sched hth hcount)).trans ?_
    rw [runSched_snd sched 0 (by omega) (by omega)]
    apply List.Perm.of_eq
    apply List.map_congr_left
    intro a _
    omega
  constructor
  · have h1 : (sortDocs allDocs).length = allDocs.length := by
      unfold sortDocs
      exact List.length_insertionSort _ _
    have h2 := hids.length_eq
    simpa using h1.trans (by simpa using h2)
  · exact sortDocs_get_id allDocs sched.length hids

/-- C1 witness: two parser threads with one document each, scheduled
thread 1 first; after the sort, position 0 holds id 0 and position 1
holds id 1. -/
theorem c1_document_table_ids_witness :
    (sortDocs (buildTable
        [[⟨(0, 0), (0, 0), (0, 1)⟩], [⟨(0, 0), (0, 0), (1, 2)⟩]] [1, 0])).length = 2 ∧
      ((sortDocs (buildTable
        [[⟨(0, 0), (0, 0), (0, 1)⟩], [⟨(0, 0), (0, 0), (1, 2)⟩]] [1, 0])).get
          ⟨0, by decide⟩).id = 0 ∧
      ((sortDocs (buildTable
        [[⟨(0, 0), (0, 0), (0, 1)⟩], [⟨(0, 0), (0, 0), (1, 2)⟩]] [1, 0])).get
          ⟨1, by decide⟩).id = 1 := by
  have h := c1_document_table_ids
    [[⟨(0, 0), (0, 0), (0, 1)⟩], [⟨(0, 0), (0, 0), (1, 2)⟩]] [1, 0]
    (buildTable [[⟨(0, 0), (0, 0), (0, 1)⟩], [⟨(0, 0), (0, 0), (1, 2)⟩]] [1, 0])
    (by decide) (by decide) (List.Perm.refl _) (by decide)
  exact ⟨h.1, h.2 0 (by decide), h.2 1 (by decide)⟩

/-! ### Claim theorems: ThreadPoolIndexer serialization (C9) -/

/-- C9: both pipeline variants of `ThreadPoolIndexer` inherit the
`DocumentIndexer` default bodies for `build_from_serialized`,
`get_serialized_inverted_index` and `get_serialized_documents`, so all
three always panic with "Not implemented"; the pipeline backends can
neither persist nor be restored from the on-disk artifacts. -/
theorem c9_threadpool_not_implemented (st : ThreadPoolIndexerState)
    (data : SerializedIndex) :
    tp_build_from_serialized st data = .error ("Not implemented".toList) ∧
      tp_get_serialized_inverted_index st = .error ("Not implemented".toList) ∧
      tp_get_serialized_documents st = .error ("Not implemented".toList) :=
  ⟨rfl, rfl, rfl⟩

/-! ### Inverted-index lemmas (C3, C10) -/

theorem memIds_nil (t : Str) (i : Int) : ¬ memIds [] t i := by
  rintro ⟨s, hs, _⟩
  simp [idxGet] at hs

theorem setInsert_mem (s : List Int) (i j : Int) :
    i ∈ setInsert s j ↔ i ∈ s ∨ i = j := by
  unfold setInsert
  split
  case isTrue h =>
    have hj : j ∈ s := List.elem_iff.mp h
    constructor
    · exact Or.inl
    · rintro (hi | rfl)
      · exact hi
      · exact hj
  case isFalse h => simp

theorem setUnion_mem (b a : List Int) (i : Int) :
    i ∈ setUnion a b ↔ i ∈ a ∨ i ∈ b := by
  induction b generalizing a with
  | nil => simp [setUnion]
  | cons x xs ih =>
    unfold setUnion at ih ⊢
    rw [List.foldl_cons, ih (setInsert a x), setInsert_mem]
    simp only [List.mem_cons]
    tauto

theorem idxGet_update (m : InvIndex) (k : Str) (f : List Int → List Int) (t : Str) :
    idxGet (idxUpdate m k f) t
      = if t = k then (idxGet m t).map f else idxGet m t := by
  induction m with
  | nil =>
    simp only [idxUpdate, List.map_nil, idxGet, List.find?_nil, Option.map_none']
    split <;> rfl
  | cons e es ih =>
    by_cases hek : e.1 = k <;> by_cases het : e.1 = t <;> by_cases htk : t = k <;>
      simp_all [idxUpdate, idxGet, List.find?_cons, beq_iff_eq]

theorem idxGet_append_single (m : InvIndex) (k : Str) (s0 : List Int) (t : Str) :
    idxGet (m ++ [(k, s0)]) t
      = match idxGet m t with
        | some s => some s
        | none => if t = k then some s0 else none := by
  induction m with
  | nil =>
    show idxGet [(k, s0)] t = if t = k then some s0 else none
    by_cases htk : t = k
    · subst htk
      simp [idxGet, List.find?_cons]
    · have hkt : (k == t) = false := by
        simp only [beq_eq_false_iff_ne]
        exact fun h => htk h.symm
      simp [idxGet, List.find?_cons, hkt, htk]
  | cons e es ih =>
    by_cases het : e.1 = t <;>
      simp_all [idxGet, List.find?_cons, beq_iff_eq]

theorem memIds_iff_of_get (m : InvIndex) (t : Str) (s : List Int)
    (h : idxGet m t = some s) (i : Int) : memIds m t i ↔ i ∈ s := by
  unfold memIds
  rw [h]
  constructor
  · rintro ⟨s', hs', hi⟩
    injection hs' with hs'
    subst hs'
    exact hi
  · intro hi
    exact ⟨s, rfl, hi⟩

theorem memIds_false_of_get_none (m : InvIndex) (t : Str)
    (h : idxGet m t = none) (i : Int) : ¬ memIds m t i := by
  rintro ⟨s', hs', _⟩
  rw [h] at hs'
  exact Option.noConfusion hs'

theorem memIds_insertToken (m : InvIndex) (k : Str) (j : Int) (t : Str) (i : Int) :
    memIds (idxInsertToken m k j) t i ↔ memIds m t i ∨ (t = k ∧ i = j) := by
  by_cases htk : t = k
  · subst htk
    cases hg : idxGet m t with
    | none =>
      have hstep : idxInsertToken m t j = m ++ [(t, [j])] := by
        unfold idxInsertToken
        rw [hg]
      have hL : idxGet (m ++ [(t, [j])]) t = some [j] := by
        rw [idxGet_append_single, hg]
        simp
      have hno := memIds_false_of_get_none m t hg i
      rw [hstep, memIds_iff_of_get _ _ _ hL i]
      simp only [List.mem_singleton]
      constructor
      · intro h
        exact Or.inr ⟨by trivial, h⟩
      · rintro (h | ⟨-, rfl⟩)
        · exact absurd h hno
        · rfl
    | some s =>
      have hstep : idxInsertToken m t j = idxUpdate m t (fun s0 => setInsert s0 j) := by
        unfold idxInsertToken
        rw [hg]
      have hL : idxGet (idxUpdate m t (fun s0 => setInsert s0 j)) t
          = some (setInsert s j) := by
        rw [idxGet_update, if_pos rfl, hg]
        rfl
      rw [hstep, memIds_iff_of_get _ _ _ hL i, memIds_iff_of_get _ _ _ hg i,
        setInsert_mem]
      constructor
      · rintro (h | h)
        · exact Or.inl h
        · exact Or.inr ⟨by trivial, h⟩
      · rintro (h | ⟨-, h⟩)
        · exact Or.inl h
        · exact Or.inr h
  · cases hg : idxGet m k with
    | none =>
      have hstep : idxInsertToken m k j = m ++ [(k, [j])] := by
        unfold idxInsertToken
        rw [hg]
      have hL : idxGet (m ++ [(k, [j])]) t = idxGet m t := by
        rw [idxGet_append_single]
        cases hgt : idxGet m t <;> simp [htk]
      unfold memIds
      rw [hstep, hL]
      simp [htk]
    | some s =>
      have hstep : idxInsertToken m k j = idxUpdate m k (fun s0 => setInsert s0 j) := by
        unfold idxInsertToken
        rw [hg]
      have hL : idxGet (idxUpdate m k (fun s0 => setInsert s0 j)) t = idxGet m t := by
        rw [idxGet_update, if_neg htk]
      unfold memIds
      rw [hstep, hL]
      simp [htk]

theorem hasKey_insertToken (m : InvIndex) (k : Str) (j : Int) (t : Str) :
    hasKey (idxInsertToken m k j) t = true ↔ hasKey m t = true ∨ t = k := by
  unfold idxInsertToken
  cases hg : idxGet m k with
  | none =>
    unfold hasKey
    rw [idxGet_append_single]
    cases hgt : idxGet m t with
    | none =>
      by_cases htk : t = k <;> simp [htk]
    | some s => simp
  | some s =>
    unfold hasKey
    rw [idxGet_update]
    by_cases htk : t = k
    · subst htk
      rw [hg]
      simp
    · simp [htk]

theorem memIds_mergeEntry (a : InvIndex) (e : Str × List Int) (t : Str) (i : Int) :
    memIds (idxMergeEntry a e) t i ↔ memIds a t i ∨ (t = e.1 ∧ i ∈ e.2) := by
  by_cases hte : t = e.1
  · rw [hte]
    cases hg : idxGet a e.1 with
    | none =>
      have hstep : idxMergeEntry a e = a ++ [e] := by
        unfold idxMergeEntry
        rw [hg]
      have hL : idxGet (a ++ [e]) e.1 = some e.2 := by
        have he : a ++ [e] = a ++ [(e.1, e.2)] := rfl
        rw [he, idxGet_append_single, hg]
        simp
      have hno := memIds_false_of_get_none a e.1 hg i
      rw [hstep, memIds_iff_of_get _ _ _ hL i]
      constructor
      · intro h
        exact Or.inr ⟨by trivial, h⟩
      · rintro (h | ⟨-, h⟩)
        · exact absurd h hno
        · exact h
    | some s =>
      have hstep : idxMergeEntry a e = idxUpdate a e.1 (fun s0 => setUnion s0 e.2) := by
        unfold idxMergeEntry
        rw [hg]
      have hL : idxGet (idxUpdate a e.1 (fun s0 => setUnion s0 e.2)) e.1
          = some (setUnion s e.2) := by
        rw [idxGet_update, if_pos rfl, hg]
        rfl
      rw [hstep, memIds_iff_of_get _ _ _ hL i, memIds_iff_of_get _ _ _ hg i,
        setUnion_mem]
      constructor
      · rintro (h | h)
        · exact Or.inl h
        · exact Or.inr ⟨by trivial, h⟩
      · rintro (h | ⟨-, h⟩)
        · exact Or.inl h
        · exact Or.inr h
  · cases hg : idxGet a e.1 with
    | none =>
      have hstep : idxMergeEntry a e = a ++ [e] := by
        unfold idxMergeEntry
        rw [hg]
      have hL : idxGet (a ++ [e]) t = idxGet a t := by
        have he : a ++ [e] = a ++ [(e.1, e.2)] := rfl
        rw [he, idxGet_append_single]
        cases hgt : idxGet a t <;> simp [hte]
      unfold memIds
      rw [hstep, hL]
      simp [hte]
    | some s =>
      have hstep : idxMergeEntry a e = idxUpdate a e.1 (fun s0 => setUnion s0 e.2) := by
        unfold idxMergeEntry
        rw [hg]
      have hL : idxGet (idxUpdate a e.1 (fun s0 => setUnion s0 e.2)) t = idxGet a t := by
        rw [idxGet_update, if_neg hte]
      unfold memIds
      rw [hstep, hL]
      simp [hte]

theorem hasKey_mergeEntry (a : InvIndex) (e : Str × List Int) (t : Str) :
    hasKey (idxMergeEntry a e) t = true ↔ hasKey a t = true ∨ t = e.1 := by
  unfold idxMergeEntry
  cases hg : idxGet a e.1 with
  | none =>
    unfold hasKey
    have : a ++ [e] = a ++ [(e.1, e.2)] := rfl
    rw [this, idxGet_append_single]
    cases hgt : idxGet a t with
    | none => by_cases hte : t = e.1 <;> simp [hte]
    | some s => simp
  | some s =>
    unfold hasKey
    rw [idxGet_update]
    by_cases hte : t = e.1
    · subst hte
      rw [hg]
      simp
    · simp [hte]

theorem memIds_merge (b a : InvIndex) (t : Str) (i : Int) :
    memIds (idxMerge a b) t i ↔ memIds a t i ∨ ∃ e ∈ b, t = e.1 ∧ i ∈ e.2 := by
  induction b generalizing a with
  | nil => simp [idxMerge]
  | cons e es ih =>
    unfold idxMerge at ih ⊢
    rw [List.foldl_cons, ih (idxMergeEntry a e), memIds_mergeEntry]
    simp only [List.mem_cons]
    constructor
    · rintro ((h | h) | ⟨e', he', h⟩)
      · exact Or.inl h
      · exact Or.inr ⟨e, Or.inl rfl, h⟩
      · exact Or.inr ⟨e', Or.inr he', h⟩
    · rintro (h | ⟨e', (rfl | he'), h⟩)
      · exact Or.inl (Or.inl h)
      · exact Or.inl (Or.inr h)
      · exact Or.inr ⟨e', he', h⟩

theorem hasKey_merge (b a : InvIndex) (t : Str) :
    hasKey (idxMerge a b) t = true ↔ hasKey a t = true ∨ ∃ e ∈ b, t = e.1 := by
  induction b generalizing a with
  | nil => simp [idxMerge]
  | cons e es ih =>
    unfold idxMerge at ih ⊢
    rw [List.foldl_cons, ih (idxMergeEntry a e), hasKey_mergeEntry]
    simp only [List.mem_cons]
    constructor
    · rintro ((h | h) | ⟨e', he', h⟩)
      · exact Or.inl h
      · exact Or.inr ⟨e, Or.inl rfl, h⟩
      · exact Or.inr ⟨e', Or.inr he', h⟩
    · rintro (h | ⟨e', (rfl | he'), h⟩)
      · exact Or.inl (Or.inl h)
      · exact Or.inl (Or.inr h)
      · exact Or.inr ⟨e', he', h⟩


theorem memIds_foldTokens (tokens : List Str) (j : Int) (m : InvIndex)
    (t : Str) (i : Int) :
    memIds (tokens.foldl (fun m' tk => idxInsertToken m' tk j) m) t i
      ↔ memIds m t i ∨ (t ∈ tokens ∧ i = j) := by
  induction tokens generalizing m with
  | nil => simp
  | cons tk tks ih =>
    rw [List.foldl_cons, ih (idxInsertToken m tk j), memIds_insertToken]
    simp only [List.mem_cons]
    constructor
    · rintro ((h | ⟨rfl, rfl⟩) | ⟨h1, h2⟩)
      · exact Or.inl h
      · exact Or.inr ⟨Or.inl rfl, rfl⟩
      · exact Or.inr ⟨Or.inr h1, h2⟩
    · rintro (h | ⟨(rfl | h1), h2⟩)
      · exact Or.inl (Or.inl h)
      · exact Or.inl (Or.inr ⟨rfl, h2⟩)
      · exact Or.inr ⟨h1, h2⟩

theorem hasKey_foldTokens (tokens : List Str) (j : Int) (m : InvIndex) (t : Str) :
    hasKey (tokens.foldl (fun m' tk => idxInsertToken m' tk j) m) t = true
      ↔ hasKey m t = true ∨ t ∈ tokens := by
  induction tokens generalizing m with
  | nil => simp
  | cons tk tks ih =>
    rw [List.foldl_cons, ih (idxInsertToken m tk j), hasKey_insertToken]
    simp only [List.mem_cons]
    tauto

theorem memIds_indexDocs_aux (contents : Bytes) (docs : List DocumentRaw)
    (m : InvIndex) (t : Str) (i : Int) :
    memIds (docs.foldl
        (fun m' d => (tokensOf contents d).foldl
          (fun m'' tk => idxInsertToken m'' tk d.id) m') m) t i
      ↔ memIds m t i ∨ ∃ d ∈ docs, t ∈ tokensOf contents d ∧ i = d.id := by
  induction docs generalizing m with
  | nil => simp
  | cons d ds ih =>
    rw [List.foldl_cons, ih, memIds_foldTokens]
    simp only [List.mem_cons]
    constructor
    · rintro ((h | ⟨h1, h2⟩) | ⟨d', hd', h⟩)
      · exact Or.inl h
      · exact Or.inr ⟨d, Or.inl rfl, h1, h2⟩
      · exact Or.inr ⟨d', Or.inr hd', h⟩
    · rintro (h | ⟨d', (rfl | hd'), h⟩)
      · exact Or.inl (Or.inl h)
      · exact Or.inl (Or.inr h)
      · exact Or.inr ⟨d', hd', h⟩

theorem memIds_indexDocs (contents : Bytes) (docs : List DocumentRaw)
    (t : Str) (i : Int) :
    memIds (indexDocs contents docs) t i
      ↔ ∃ d ∈ docs, t ∈ tokensOf contents d ∧ i = d.id := by
  unfold indexDocs
  rw [memIds_indexDocs_aux]
  have := memIds_nil t i
  tauto

theorem hasKey_indexDocs_aux (contents : Bytes) (docs : List DocumentRaw)
    (m : InvIndex) (t : Str) :
    hasKey (docs.foldl
        (fun m' d => (tokensOf contents d).foldl
          (fun m'' tk => idxInsertToken m'' tk d.id) m') m) t = true
      ↔ hasKey m t = true ∨ ∃ d ∈ docs, t ∈ tokensOf contents d := by
  induction docs generalizing m with
  | nil => simp
  | cons d ds ih =>
    rw [List.foldl_cons, ih, hasKey_foldTokens]
    simp only [List.mem_cons]
    constructor
    · rintro ((h | h) | ⟨d', hd', h⟩)
      · exact Or.inl h
      · exact Or.inr ⟨d, Or.inl rfl, h⟩
      · exact Or.inr ⟨d', Or.inr hd', h⟩
    · rintro (h | ⟨d', (rfl | hd'), h⟩)
      · exact Or.inl (Or.inl h)
      · exact Or.inl (Or.inr h)
      · exact Or.inr ⟨d', hd', h⟩

theorem hasKey_indexDocs (contents : Bytes) (docs : List DocumentRaw) (t : Str) :
    hasKey (indexDocs contents docs) t = true
      ↔ ∃ d ∈ docs, t ∈ tokensOf contents d := by
  unfold indexDocs
  rw [hasKey_indexDocs_aux]
  have : hasKey [] t = false := rfl
  simp [this]

theorem keys_idxUpdate (m : InvIndex) (k : Str) (f : List Int → List Int) :
    (idxUpdate m k f).map Prod.fst = m.map Prod.fst := by
  unfold idxUpdate
  rw [List.map_map]
  apply List.map_congr_left
  intro e _
  by_cases hek : e.1 = k <;> simp [hek]

theorem nodup_insertToken (m : InvIndex) (k : Str) (j : Int)
    (h : (m.map Prod.fst).Nodup) :
    ((idxInsertToken m k j).map Prod.fst).Nodup := by
  unfold idxInsertToken
  cases hg : idxGet m k with
  | some s =>
    rw [keys_idxUpdate]
    exact h
  | none =>
    rw [List.map_append]
    rw [List.nodup_append]
    refine ⟨h, by simp, ?_⟩
    intro x hx
    simp only [List.map_cons, List.map_nil, List.mem_singleton]
    rintro rfl
    unfold idxGet at hg
    rw [Option.map_eq_none'] at hg
    rw [List.find?_eq_none] at hg
    obtain ⟨e, he, hek⟩ := List.mem_map.mp hx
    exact hg e he (by simp [beq_iff_eq, hek])

theorem nodup_foldTokens (tokens : List Str) (j : Int) (m : InvIndex)
    (h : (m.map Prod.fst).Nodup) :
    (((tokens.foldl (fun m' tk => idxInsertToken m' tk j) m)).map Prod.fst).Nodup := by
  induction tokens generalizing m with
  | nil => exact h
  | cons tk tks ih =>
    rw [List.foldl_cons]
    exact ih _ (nodup_insertToken m tk j h)

theorem nodup_indexDocs (contents : Bytes) (docs : List DocumentRaw) :
    ((indexDocs contents docs).map Prod.fst).Nodup := by
  unfold indexDocs
  have H : ∀ (ds : List DocumentRaw) (m : InvIndex), (m.map Prod.fst).Nodup →
      ((ds.foldl (fun m' d => (tokensOf contents d).foldl
        (fun m'' tk => idxInsertToken m'' tk d.id) m') m).map Prod.fst).Nodup := by
    intro ds
    induction ds with
    | nil => exact fun m hm => hm
    | cons d ds' ih =>
      intro m hm
      rw [List.foldl_cons]
      exact ih _ (nodup_foldTokens _ _ _ hm)
  exact H docs [] (by simp)

theorem entryMem_iff_memIds (m : InvIndex) (hnd : (m.map Prod.fst).Nodup)
    (t : Str) (i : Int) :
    (∃ e ∈ m, t = e.1 ∧ i ∈ e.2) ↔ memIds m t i := by
  induction m with
  | nil => simp [memIds_nil]
  | cons e es ih =>
    rw [List.map_cons, List.nodup_cons] at hnd
    by_cases het : t = e.1
    · have hL : idxGet (e :: es) t = some e.2 := by
        unfold idxGet
        rw [List.find?_cons]
        have : (e.1 == t) = true := by simp [beq_iff_eq, het]
        rw [this]
        rfl
      rw [memIds_iff_of_get _ _ _ hL]
      constructor
      · rintro ⟨e', he', rfl, hi⟩
        rcases List.mem_cons.mp he' with rfl | he'
        · exact hi
        · exfalso
          exact hnd.1 (het ▸ List.mem_map.mpr ⟨e', he', rfl⟩)
      · intro hi
        exact ⟨e, List.mem_cons_self _ _, het, hi⟩
    · have hL : idxGet (e :: es) t = idxGet es t := by
        unfold idxGet
        rw [List.find?_cons]
        have : (e.1 == t) = false := by
          simp only [beq_eq_false_iff_ne]
          exact fun h => het h.symm
        rw [this]
      have hR : memIds (e :: es) t i ↔ memIds es t i := by
        unfold memIds
        rw [hL]
      rw [hR, ← ih hnd.2]
      constructor
      · rintro ⟨e', he', rfl, hi⟩
        rcases List.mem_cons.mp he' with rfl | he'
        · exact absurd rfl het
        · exact ⟨e', he', rfl, hi⟩
      · rintro ⟨e', he', rfl, hi⟩
        exact ⟨e', List.mem_cons_of_mem _ he', rfl, hi⟩

theorem entryKey_iff_hasKey (m : InvIndex) (t : Str) :
    (∃ e ∈ m, t = e.1) ↔ hasKey m t = true := by
  unfold hasKey idxGet
  cases hf : m.find? (fun e => e.1 == t) with
  | none =>
    rw [List.find?_eq_none] at hf
    simp only [Option.map_none', Option.isSome_none]
    constructor
    · rintro ⟨e, he, rfl⟩
      exact absurd (by simp : (e.1 == e.1) = true) (hf e he)
    · intro h
      simp at h
  | some e' =>
    simp only [Option.map_some', Option.isSome_some]
    constructor
    · intro _
      trivial
    · intro _
      have hmem := List.mem_of_find?_eq_some hf
      have hp := List.find?_some hf
      have hpe : e'.1 = t := by
        have hb : (e'.1 == t) = true := hp
        exact beq_iff_eq.mp hb
      exact ⟨e', hmem, hpe.symm⟩

theorem memIds_foldMerge (ms : List InvIndex) (a : InvIndex)
    (hnd : ∀ m ∈ ms, (m.map Prod.fst).Nodup) (t : Str) (i : Int) :
    memIds (ms.foldl idxMerge a) t i ↔ memIds a t i ∨ ∃ m ∈ ms, memIds m t i := by
  induction ms generalizing a with
  | nil => simp
  | cons m ms' ih =>
    rw [List.foldl_cons, ih _ (fun x hx => hnd x (List.mem_cons_of_mem _ hx)),
      memIds_merge]
    rw [entryMem_iff_memIds m (hnd m (List.mem_cons_self _ _))]
    simp only [List.mem_cons]
    constructor
    · rintro ((h | h) | ⟨m', hm', h⟩)
      · exact Or.inl h
      · exact Or.inr ⟨m, Or.inl rfl, h⟩
      · exact Or.inr ⟨m', Or.inr hm', h⟩
    · rintro (h | ⟨m', (rfl | hm'), h⟩)
      · exact Or.inl (Or.inl h)
      · exact Or.inl (Or.inr h)
      · exact Or.inr ⟨m', hm', h⟩

theorem hasKey_foldMerge (ms : List InvIndex) (a : InvIndex) (t : Str) :
    hasKey (ms.foldl idxMerge a) t = true
      ↔ hasKey a t = true ∨ ∃ m ∈ ms, hasKey m t = true := by
  induction ms generalizing a with
  | nil => simp
  | cons m ms' ih =>
    rw [List.foldl_cons, ih _, hasKey_merge, entryKey_iff_hasKey]
    simp only [List.mem_cons]
    constructor
    · rintro ((h | h) | ⟨m', hm', h⟩)
      · exact Or.inl h
      · exact Or.inr ⟨m, Or.inl rfl, h⟩
      · exact Or.inr ⟨m', Or.inr hm', h⟩
    · rintro (h | ⟨m', (rfl | hm'), h⟩)
      · exact Or.inl (Or.inl h)
      · exact Or.inl (Or.inr h)
      · exact Or.inr ⟨m', hm', h⟩

theorem chunksOfAux_flatten (k fuel : Nat) (l : List α) :
    (chunksOfAux k fuel l).flatten = l := by
  induction fuel generalizing l with
  | zero =>
    cases l with
    | nil => rfl
    | cons x xs => simp [chunksOfAux]
  | succ f ih =>
    cases l with
    | nil => rfl
    | cons x xs =>
      by_cases hk : k = 0
      · simp [chunksOfAux, hk]
      · simp only [chunksOfAux, if_neg hk, List.flatten_cons, ih]
        exact List.take_append_drop k (x :: xs)

theorem chunksOf_flatten (k : Nat) (l : List α) : (chunksOf k l).flatten = l :=
  chunksOfAux_flatten k l.length l

theorem mem_chunksOf (k : Nat) (l : List α) (a : α) :
    (∃ c ∈ chunksOf k l, a ∈ c) ↔ a ∈ l := by
  constructor
  · rintro ⟨c, hc, ha⟩
    have h := List.mem_flatten.mpr ⟨c, hc, ha⟩
    rwa [chunksOf_flatten] at h
  · intro ha
    have h : a ∈ (chunksOf k l).flatten := by rw [chunksOf_flatten]; exact ha
    exact List.mem_flatten.mp h

theorem memIds_rayonBuild (contents : Bytes) (docs : List DocumentRaw)
    (numThreads : Nat) (t : Str) (i : Int) :
    memIds (rayonBuild contents docs numThreads) t i
      ↔ ∃ d ∈ docs, t ∈ tokensOf contents d ∧ i = d.id := by
  unfold rayonBuild
  have hnd : ∀ m ∈ (chunksOf (max (docs.length / numThreads) 1) docs).map
      (indexDocs contents), (m.map Prod.fst).Nodup := by
    intro m hm
    obtain ⟨c, -, rfl⟩ := List.mem_map.mp hm
    exact nodup_indexDocs contents c
  rw [memIds_foldMerge _ _ hnd]
  constructor
  · rintro (h | ⟨m, hm, h⟩)
    · exact absurd h (memIds_nil t i)
    · obtain ⟨c, hc, rfl⟩ := List.mem_map.mp hm
      obtain ⟨d, hd, h⟩ := (memIds_indexDocs contents c t i).mp h
      exact ⟨d, (mem_chunksOf _ _ _).mp ⟨c, hc, hd⟩, h⟩
  · rintro ⟨d, hd, h⟩
    obtain ⟨c, hc, hdc⟩ := (mem_chunksOf (max (docs.length / numThreads) 1) docs d).mpr hd
    exact Or.inr ⟨indexDocs contents c, List.mem_map_of_mem _ hc,
      (memIds_indexDocs contents c t i).mpr ⟨d, hdc, h⟩⟩

theorem hasKey_rayonBuild (contents : Bytes) (docs : List DocumentRaw)
    (numThreads : Nat) (t : Str) :
    hasKey (rayonBuild contents docs numThreads) t = true
      ↔ ∃ d ∈ docs, t ∈ tokensOf contents d := by
  unfold rayonBuild
  rw [hasKey_foldMerge]
  constructor
  · rintro (h | ⟨m, hm, h⟩)
    · simp [hasKey, idxGet] at h
    · obtain ⟨c, hc, rfl⟩ := List.mem_map.mp hm
      obtain ⟨d, hd, h⟩ := (hasKey_indexDocs contents c t).mp h
      exact ⟨d, (mem_chunksOf _ _ _).mp ⟨c, hc, hd⟩, h⟩
  · rintro ⟨d, hd, h⟩
    obtain ⟨c, hc, hdc⟩ := (mem_chunksOf (max (docs.length / numThreads) 1) docs d).mpr hd
    exact Or.inr ⟨indexDocs contents c, List.mem_map_of_mem _ hc,
      (hasKey_indexDocs contents c t).mpr ⟨d, hdc, h⟩⟩

theorem memIds_pipelineBuild (contents : Bytes) (distrib : List (List DocumentRaw))
    (t : Str) (i : Int) :
    memIds (pipelineBuild contents distrib) t i
      ↔ ∃ d ∈ distrib.flatten, t ∈ tokensOf contents d ∧ i = d.id := by
  cases distrib with
  | nil =>
    constructor
    · intro h
      exact absurd h (memIds_nil t i)
    · rintro ⟨d, hd, -⟩
      simp at hd
  | cons ds rest =>
    show memIds ((rest.map (indexDocs contents)).foldl idxMerge (indexDocs contents ds)) t i ↔ _
    have hnd : ∀ m ∈ rest.map (indexDocs contents), (m.map Prod.fst).Nodup := by
      intro m hm
      obtain ⟨c, -, rfl⟩ := List.mem_map.mp hm
      exact nodup_indexDocs contents c
    rw [memIds_foldMerge _ _ hnd, memIds_indexDocs]
    constructor
    · rintro (⟨d, hd, h⟩ | ⟨m, hm, h⟩)
      · exact ⟨d, List.mem_flatten.mpr ⟨ds, List.mem_cons_self _ _, hd⟩, h⟩
      · obtain ⟨c, hc, rfl⟩ := List.mem_map.mp hm
        obtain ⟨d, hd, h⟩ := (memIds_indexDocs contents c t i).mp h
        exact ⟨d, List.mem_flatten.mpr ⟨c, List.mem_cons_of_mem _ hc, hd⟩, h⟩
    · rintro ⟨d, hd, h⟩
      obtain ⟨c, hc, hdc⟩ := List.mem_flatten.mp hd
      rcases List.mem_cons.mp hc with rfl | hc
      · exact Or.inl ⟨d, hdc, h⟩
      · exact Or.inr ⟨indexDocs contents c, List.mem_map_of_mem _ hc,
          (memIds_indexDocs contents c t i).mpr ⟨d, hdc, h⟩⟩

theorem hasKey_pipelineBuild (contents : Bytes) (distrib : List (List DocumentRaw))
    (t : Str) :
    hasKey (pipelineBuild contents distrib) t = true
      ↔ ∃ d ∈ distrib.flatten, t ∈ tokensOf contents d := by
  cases distrib with
  | nil =>
    constructor
    · intro h
      simp [pipelineBuild, hasKey, idxGet] at h
    · rintro ⟨d, hd, -⟩
      simp at hd
  | cons ds rest =>
    show hasKey ((rest.map (indexDocs contents)).foldl idxMerge (indexDocs contents ds)) t
        = true ↔ _
    rw [hasKey_foldMerge, hasKey_indexDocs]
    constructor
    · rintro (⟨d, hd, h⟩ | ⟨m, hm, h⟩)
      · exact ⟨d, List.mem_flatten.mpr ⟨ds, List.mem_cons_self _ _, hd⟩, h⟩
      · obtain ⟨c, hc, rfl⟩ := List.mem_map.mp hm
        obtain ⟨d, hd, h⟩ := (hasKey_indexDocs contents c t).mp h
        exact ⟨d, List.mem_flatten.mpr ⟨c, List.mem_cons_of_mem _ hc, hd⟩, h⟩
    · rintro ⟨d, hd, h⟩
      obtain ⟨c, hc, hdc⟩ := List.mem_flatten.mp hd
      rcases List.mem_cons.mp hc with rfl | hc
      · exact Or.inl ⟨d, hdc, h⟩
      · exact Or.inr ⟨indexDocs contents c, List.mem_map_of_mem _ hc,
          (hasKey_indexDocs contents c t).mpr ⟨d, hdc, h⟩⟩

theorem dashRun_cons (w : Nat) (ws : List Nat) (st : DashState) :
    dashRun (w :: ws) st = dashRun ws (dashStep st w) := rfl

theorem dashRun_done (fuel : Nat) (m : InvIndex) :
    dashRun (List.replicate fuel 0) ⟨m, [⟨[], none⟩]⟩ = ⟨m, [⟨[], none⟩]⟩ := by
  induction fuel with
  | zero => rfl
  | succ f ih =>
    rw [List.replicate_succ, dashRun_cons]
    have hstep : dashStep ⟨m, [⟨[], none⟩]⟩ 0 = ⟨m, [⟨[], none⟩]⟩ := rfl
    rw [hstep]
    exact ih

theorem idxInsertToken_of_some (m : InvIndex) (k : Str) (i : Int) (s : List Int)
    (hk : idxGet m k = some s) :
    idxInsertToken m k i = idxUpdate m k (fun s0 => setInsert s0 i) := by
  unfold idxInsertToken
  rw [hk]

theorem idxInsertToken_of_none (m : InvIndex) (k : Str) (i : Int)
    (hk : idxGet m k = none) :
    idxInsertToken m k i = m ++ [(k, [i])] := by
  unfold idxInsertToken
  rw [hk]

theorem seqInsert_cons (m : InvIndex) (k : Str) (i : Int) (rest : List (Str × Int)) :
    seqInsert m ((k, i) :: rest) = seqInsert (idxInsertToken m k i) rest := rfl

theorem dashRun_single (ops : List (Str × Int)) (fuel : Nat) (m : InvIndex)
    (hfuel : 2 * ops.length ≤ fuel) :
    dashRun (List.replicate fuel 0) ⟨m, [⟨ops, none⟩]⟩
      = ⟨seqInsert m ops, [⟨[], none⟩]⟩ := by
  induction ops generalizing m fuel with
  | nil =>
    rw [dashRun_done]
    rfl
  | cons p rest ih =>
    obtain ⟨k, i⟩ := p
    cases fuel with
    | zero =>
      simp only [List.length_cons] at hfuel
      omega
    | succ f =>
      rw [List.replicate_succ, dashRun_cons]
      cases hk : idxGet m k with
      | some s =>
        have hstep : dashStep ⟨m, [⟨(k, i) :: rest, none⟩]⟩ 0
            = ⟨idxUpdate m k (fun s0 => setInsert s0 i), [⟨rest, none⟩]⟩ := by
          simp [dashStep, dashStepWorker, hk]
        rw [hstep, seqInsert_cons, idxInsertToken_of_some m k i s hk]
        exact ih f _ (by simp only [List.length_cons] at hfuel; omega)
      | none =>
        have hstep : dashStep ⟨m, [⟨(k, i) :: rest, none⟩]⟩ 0
            = ⟨m, [⟨rest, some (k, i)⟩]⟩ := by
          simp [dashStep, dashStepWorker, hk]
        rw [hstep]
        cases f with
        | zero =>
          simp only [List.length_cons] at hfuel
          omega
        | succ f2 =>
          rw [List.replicate_succ, dashRun_cons]
          have hstep2 : dashStep ⟨m, [⟨rest, some (k, i)⟩]⟩ 0
              = ⟨idxOverwrite m k [i], [⟨rest, none⟩]⟩ := by
            simp [dashStep, dashStepWorker]
          have hov : idxOverwrite m k [i] = m ++ [(k, [i])] := by
            unfold idxOverwrite
            rw [hk]
          rw [hstep2, hov, seqInsert_cons, idxInsertToken_of_none m k i hk]
          exact ih f2 _ (by simp only [List.length_cons] at hfuel; omega)

theorem memIds_seqInsert (ops : List (Str × Int)) (m : InvIndex) (t : Str) (i : Int) :
    memIds (seqInsert m ops) t i ↔ memIds m t i ∨ (t, i) ∈ ops := by
  induction ops generalizing m with
  | nil => simp [seqInsert]
  | cons p rest ih =>
    obtain ⟨k, j⟩ := p
    rw [seqInsert_cons, ih, memIds_insertToken]
    simp only [List.mem_cons, Prod.mk.injEq]
    tauto

theorem hasKey_seqInsert (ops : List (Str × Int)) (m : InvIndex) (t : Str) :
    hasKey (seqInsert m ops) t = true
      ↔ hasKey m t = true ∨ ∃ p ∈ ops, p.1 = t := by
  induction ops generalizing m with
  | nil => simp [seqInsert]
  | cons p rest ih =>
    obtain ⟨k, j⟩ := p
    rw [seqInsert_cons, ih, hasKey_insertToken]
    simp only [List.mem_cons]
    constructor
    · rintro ((h | h) | ⟨q, hq, hqt⟩)
      · exact Or.inl h
      · exact Or.inr ⟨(k, j), Or.inl rfl, h.symm⟩
      · exact Or.inr ⟨q, Or.inr hq, hqt⟩
    · rintro (h | ⟨q, (rfl | hq), hqt⟩)
      · exact Or.inl (Or.inl h)
      · exact Or.inl (Or.inr hqt.symm)
      · exact Or.inr ⟨q, hq, hqt⟩

theorem mem_docPairs (contents : Bytes) (d : DocumentRaw) (t : Str) (i : Int) :
    (t, i) ∈ docPairs contents d ↔ t ∈ tokensOf contents d ∧ i = d.id := by
  unfold docPairs
  rw [List.mem_map]
  constructor
  · rintro ⟨tk, htk, heq⟩
    injection heq with h1 h2
    subst h1
    subst h2
    exact ⟨htk, rfl⟩
  · rintro ⟨ht, rfl⟩
    exact ⟨t, ht, rfl⟩

theorem mem_workerStream (contents : Bytes) (ds : List DocumentRaw) (t : Str) (i : Int) :
    (t, i) ∈ workerStream contents ds
      ↔ ∃ d ∈ ds, t ∈ tokensOf contents d ∧ i = d.id := by
  unfold workerStream
  rw [List.mem_flatMap]
  constructor
  · rintro ⟨d, hd, hp⟩
    exact ⟨d, hd, (mem_docPairs contents d t i).mp hp⟩
  · rintro ⟨d, hd, h⟩
    exact ⟨d, hd, (mem_docPairs contents d t i).mpr h⟩

theorem dashBuild_single (contents : Bytes) (docs : List DocumentRaw) (fuel : Nat)
    (hfuel : 2 * (workerStream contents docs).length ≤ fuel) :
    dashBuild [workerStream contents docs] (List.replicate fuel 0)
      = seqInsert [] (workerStream contents docs) := by
  unfold dashBuild
  have h1 : List.map (fun o => (⟨o, none⟩ : DashWorker)) [workerStream contents docs]
      = [⟨workerStream contents docs, none⟩] := rfl
  rw [h1, dashRun_single _ _ _ hfuel]

/-- C3 counterexample: on the corpus "zebrazebra" with two documents
(ids 0 and 1) whose text ranges both tokenize to the single term
"zebra", the map/reduce (`RayonIndexer`) build maps "zebra" to the id
set {0, 1}, but the shared-`DashMap` pipeline under the interleaving
[0, 1, 0, 1] loses id 0: both workers miss on the fresh key, and the
second blind `insert` overwrites the first, leaving {1}.  The two
backends thus do not have identical id sets for each key. -/
theorem c3_counterexample :
    idxGet
        (rayonBuild (utf8Encode ("zebrazebra".toList))
          [⟨(0, 0), (0, 0), (0, 5), 0⟩, ⟨(0, 0), (0, 0), (5, 10), 1⟩] 2)
        ("zebra".toList)
      = some [0, 1] ∧
    idxGet
        (dashBuild
          [workerStream (utf8Encode ("zebrazebra".toList)) [⟨(0, 0), (0, 0), (0, 5), 0⟩],
           workerStream (utf8Encode ("zebrazebra".toList)) [⟨(0, 0), (0, 0), (5, 10), 1⟩]]
          [0, 1, 0, 1])
        ("zebra".toList)
      = some [1] := by
  constructor
  · rfl
  · rfl

/-- C3 (corrected): the map/reduce topology (`RayonIndexer`) and the
hashmap-partitioned pipeline (`ThreadPoolIndexer::build_hashmap`)
always agree — whenever the pipeline's workers drain exactly the
documents of the table (any partition, any order), the two indices
have identical key sets and identical id sets for each key.  The
shared-`DashMap` variant agrees only in the absence of contention: a
single worker run to completion (the serialized schedule) also matches
the map/reduce index, but under concurrent schedules the unsynchronized
check-then-insert can drop ids (see the counterexample), so the
original claim's unconditional three-way equivalence fails. -/
theorem c3_backend_equivalence (contents : Bytes) (docs : List DocumentRaw)
    (numThreads : Nat) (distrib : List (List DocumentRaw)) (fuel : Nat)
    (hset : ∀ d, d ∈ distrib.flatten ↔ d ∈ docs)
    (hfuel : 2 * (workerStream contents docs).length ≤ fuel) :
    (∀ t, hasKey (pipelineBuild contents distrib) t
        = hasKey (rayonBuild contents docs numThreads) t) ∧
    (∀ t i, memIds (pipelineBuild contents distrib) t i
        ↔ memIds (rayonBuild contents docs numThreads) t i) ∧
    (∀ t, hasKey (dashBuild [workerStream contents docs] (List.replicate fuel 0)) t
        = hasKey (rayonBuild contents docs numThreads) t) ∧
    (∀ t i, memIds (dashBuild [workerStream contents docs] (List.replicate fuel 0)) t i
        ↔ memIds (rayonBuild contents docs numThreads) t i) := by
  refine ⟨?_, ?_, ?_, ?_⟩
  · intro t
    rw [Bool.eq_iff_iff, hasKey_pipelineBuild, hasKey_rayonBuild]
    constructor
    · rintro ⟨d, hd, h⟩
      exact ⟨d, (hset d).mp hd, h⟩
    · rintro ⟨d, hd, h⟩
      exact ⟨d, (hset d).mpr hd, h⟩
  · intro t i
    rw [memIds_pipelineBuild, memIds_rayonBuild]
    constructor
    · rintro ⟨d, hd, h⟩
      exact ⟨d, (hset d).mp hd, h⟩
    · rintro ⟨d, hd, h⟩
      exact ⟨d, (hset d).mpr hd, h⟩
  · intro t
    rw [Bool.eq_iff_iff, dashBuild_single contents docs fuel hfuel,
      hasKey_seqInsert, hasKey_rayonBuild]
    constructor
    · rintro (h | ⟨⟨pt, pi⟩, hp, hpt⟩)
      · simp [hasKey, idxGet] at h
      · subst hpt
        obtain ⟨d, hd, ht, -⟩ := (mem_workerStream contents docs pt pi).mp hp
        exact ⟨d, hd, ht⟩
    · rintro ⟨d, hd, ht⟩
      exact Or.inr ⟨(t, d.id),
        (mem_workerStream contents docs t d.id).mpr ⟨d, hd, ht, rfl⟩, rfl⟩
  · intro t i
    rw [dashBuild_single contents docs fuel hfuel, memIds_seqInsert, memIds_rayonBuild]
    constructor
    · rintro (h | hp)
      · exact absurd h (memIds_nil t i)
      · exact (mem_workerStream contents docs t i).mp hp
    · intro h
      exact Or.inr ((mem_workerStream contents docs t i).mpr h)

/-- Witness for `c3_backend_equivalence` at the corpus "zebrayak",
documents (ids 0, 1) with the partition [[doc 0], [doc 1]], two rayon
threads, and a serialized dash schedule of 4 steps. -/
theorem c3_backend_equivalence_witness :
    (∀ t, hasKey
        (pipelineBuild (utf8Encode ("zebrayak".toList))
          [[⟨(0, 0), (0, 0), (0, 5), 0⟩], [⟨(0, 0), (0, 0), (5, 8), 1⟩]]) t
        = hasKey (rayonBuild (utf8Encode ("zebrayak".toList))
          [⟨(0, 0), (0, 0), (0, 5), 0⟩, ⟨(0, 0), (0, 0), (5, 8), 1⟩] 2) t) ∧
    (∀ t i, memIds
        (pipelineBuild (utf8Encode ("zebrayak".toList))
          [[⟨(0, 0), (0, 0), (0, 5), 0⟩], [⟨(0, 0), (0, 0), (5, 8), 1⟩]]) t i
        ↔ memIds (rayonBuild (utf8Encode ("zebrayak".toList))
          [⟨(0, 0), (0, 0), (0, 5), 0⟩, ⟨(0, 0), (0, 0), (5, 8), 1⟩] 2) t i) ∧
    (∀ t, hasKey
        (dashBuild
          [workerStream (utf8Encode ("zebrayak".toList))
            [⟨(0, 0), (0, 0), (0, 5), 0⟩, ⟨(0, 0), (0, 0), (5, 8), 1⟩]]
          (List.replicate 4 0)) t
        = hasKey (rayonBuild (utf8Encode ("zebrayak".toList))
          [⟨(0, 0), (0, 0), (0, 5), 0⟩, ⟨(0, 0), (0, 0), (5, 8), 1⟩] 2) t) ∧
    (∀ t i, memIds
        (dashBuild
          [workerStream (utf8Encode ("zebrayak".toList))
            [⟨(0, 0), (0, 0), (0, 5), 0⟩, ⟨(0, 0), (0, 0), (5, 8), 1⟩]]
          (List.replicate 4 0)) t i
        ↔ memIds (rayonBuild (utf8Encode ("zebrayak".toList))
          [⟨(0, 0), (0, 0), (0, 5), 0⟩, ⟨(0, 0), (0, 0), (5, 8), 1⟩] 2) t i) :=
  c3_backend_equivalence (utf8Encode ("zebrayak".toList))
    [⟨(0, 0), (0, 0), (0, 5), 0⟩, ⟨(0, 0), (0, 0), (5, 8), 1⟩] 2
    [[⟨(0, 0), (0, 0), (0, 5), 0⟩], [⟨(0, 0), (0, 0), (5, 8), 1⟩]] 4
    (fun d => Iff.rfl) (by decide)

theorem length_chopSuffix (w : Str) (k : Nat) :
    (chopSuffix w k).length = w.length - k := by
  unfold chopSuffix
  rw [List.length_take]
  omega

theorem length_replaceSuf (w : Str) (k : Nat) (rep : Str) :
    (replaceSuf w k rep).length = (w.length - k) + rep.length := by
  unfold replaceSuf
  rw [List.length_append, List.length_take]
  omega

theorem endsWith_length_le (w s : Str) (h : endsWith w s = true) :
    s.length ≤ w.length := by
  unfold endsWith at h
  rw [List.isSuffixOf_iff_suffix] at h
  exact h.length_le

theorem length_markYsAux (b : Bool) (w : Str) : (markYsAux b w).length = w.length := by
  induction w generalizing b with
  | nil => rfl
  | cons c rest ih =>
    unfold markYsAux
    simp only [List.length_cons, ih]

theorem length_markYs (w : Str) : (markYs w).length = w.length :=
  length_markYsAux true w

theorem length_unY (w : Str) : (unY w).length = w.length := by
  unfold unY
  rw [List.length_map]

theorem r1Std_pos (c : Char) (rest : Str) : 1 ≤ r1Std (c :: rest) := by
  unfold r1Std
  split <;> omega

theorem r1Pos_pos (w : Str) (h : w ≠ []) : 1 ≤ r1Pos w := by
  unfold r1Pos
  split
  · omega
  · split
    · omega
    · split
      · omega
      · cases w with
        | nil => exact absurd rfl h
        | cons c rest => exact r1Std_pos c rest

theorem r2Pos_pos (w : Str) (h : w ≠ []) : 1 ≤ r2Pos w := by
  unfold r2Pos
  have := r1Pos_pos w h
  omega

theorem exception1_length_pos (w r : Str) (h : exception1 w = some r) :
    0 < r.length := by
  unfold exception1 at h
  cases hf : exceptions1.find? (fun p => p.1 == w) with
  | none => rw [hf] at h; exact absurd h (by simp)
  | some p =>
    rw [hf] at h
    have hp := List.mem_of_find?_eq_some hf
    have hall : ∀ q ∈ exceptions1, 0 < q.2.length := by decide
    have := hall p hp
    simp only [Option.map_some', Option.some.injEq] at h
    rw [← h]
    exact this

theorem endsDouble_two_le (w : Str) (h : endsDouble w = true) : 2 ≤ w.length := by
  unfold endsDouble at h
  rw [List.any_eq_true] at h
  obtain ⟨d, hd, hw⟩ := h
  have hlen : ∀ x ∈ doubles, x.length = 2 := by decide
  have := endsWith_length_le w d hw
  rw [hlen d hd] at this
  exact this

theorem after1bAdjust_length_pos (w : Str) (p1 : Nat) (h : 0 < w.length) :
    0 < (after1bAdjust w p1).length := by
  unfold after1bAdjust
  split
  · rw [List.length_append]
    omega
  · split
    · rw [length_chopSuffix]
      have := endsDouble_two_le w (by assumption)
      omega
    · split
      · rw [List.length_append]
        omega
      · exact h

theorem step1bDel_length_pos (w : Str) (k : Nat) (p1 : Nat) (h : 0 < w.length) :
    0 < (step1bDel w k p1).length := by
  unfold step1bDel
  split
  · rename_i hv
    refine after1bAdjust_length_pos _ _ ?_
    rw [length_chopSuffix]
    unfold hasVowel at hv
    rw [List.any_eq_true] at hv
    obtain ⟨c, hc, -⟩ := hv
    have : w.take (w.length - k) ≠ [] := List.ne_nil_of_mem hc
    have hl : 0 < (w.take (w.length - k)).length := List.length_pos.mpr this
    rw [List.length_take] at hl
    omega
  · exact h

theorem step1b_length_pos (w : Str) (p1 : Nat) (h : 0 < w.length) :
    0 < (step1b w p1).length := by
  unfold step1b
  split
  · split
    · rw [length_replaceSuf]
      have hee : ("ee".toList).length = 2 := rfl
      omega
    · exact h
  · split
    · exact step1bDel_length_pos w 5 p1 h
    · split
      · exact step1bDel_length_pos w 4 p1 h
      · split
        · split
          · rw [length_replaceSuf]
            have hee : ("ee".toList).length = 2 := rfl
            omega
          · exact h
        · split
          · exact step1bDel_length_pos w 3 p1 h
          · split
            · exact step1bDel_length_pos w 2 p1 h
            · exact h

theorem step1a_length_pos (w : Str) (h : 0 < w.length) :
    0 < (step1a w).length := by
  unfold step1a
  split
  · rw [length_replaceSuf]
    have hss : ("ss".toList).length = 2 := rfl
    omega
  · split
    · split
      · rw [length_replaceSuf]
        have hi : (['i'] : Str).length = 1 := rfl
        omega
      · rw [length_replaceSuf]
        have hie : ("ie".toList).length = 2 := rfl
        omega
    · split
      · exact h
      · split
        · split
          · rename_i hv
            rw [length_chopSuffix]
            rw [List.any_eq_true] at hv
            obtain ⟨c, hc, -⟩ := hv
            have : w.take (w.length - 2) ≠ [] := List.ne_nil_of_mem hc
            have hl : 0 < (w.take (w.length - 2)).length := List.length_pos.mpr this
            rw [List.length_take] at hl
            omega
          · exact h
        · exact h

theorem step1c_length_pos (w : Str) (h : 0 < w.length) :
    0 < (step1c w).length := by
  unfold step1c
  split
  · split
    · rw [List.length_append, List.length_singleton]
      omega
    · exact h
  · exact h

theorem applyRules_length_pos (region p2 : Nat) (rules : List SufRule) (w : Str)
    (hreg : 1 ≤ region) (h : 0 < w.length) :
    0 < (applyRules region p2 rules w).length := by
  unfold applyRules
  split
  · exact h
  · split
    · rename_i r hfind hcond
      rw [length_replaceSuf]
      rw [Bool.and_eq_true, decide_eq_true_eq] at hcond
      omega
    · exact h

theorem step5_length_pos (w : Str) (p1 p2 : Nat) (hp1 : 1 ≤ p1) (hp2 : 1 ≤ p2)
    (h : 0 < w.length) : 0 < (step5 w p1 p2).length := by
  unfold step5
  split
  · split
    · rename_i hlast hcond
      rw [length_chopSuffix]
      simp only [Bool.or_eq_true, Bool.and_eq_true, decide_eq_true_eq] at hcond
      rcases hcond with hc | ⟨hc, -⟩ <;> omega
    · exact h
  · split
    · split
      · rename_i hlast1 hlast2 hcond
        rw [length_chopSuffix]
        simp only [Bool.and_eq_true, decide_eq_true_eq] at hcond
        have := hcond.1
        omega
      · exact h
    · exact h

theorem englishStem_length_pos (word : Str) (h : 0 < word.length) :
    0 < (englishStem word).length := by
  cases hexc : exception1 word with
  | some r =>
    unfold englishStem
    rw [hexc]
    exact exception1_length_pos word r hexc
  | none =>
    unfold englishStem
    rw [hexc]
    by_cases hlen : word.length ≤ 2
    · rw [if_pos hlen]
      exact h
    · rw [if_neg hlen]
      show 0 < (if exceptions2.contains (step1a (markYs word)) then
          unY (step1a (markYs word))
        else
          unY (step5
            (applyRules (r2Pos (markYs word)) (r2Pos (markYs word)) step4Rules
              (applyRules (r1Pos (markYs word)) (r2Pos (markYs word)) step3Rules
                (applyRules (r1Pos (markYs word)) (r2Pos (markYs word)) step2Rules
                  (step1c (step1b (step1a (markYs word)) (r1Pos (markYs word)))))))
            (r1Pos (markYs word)) (r2Pos (markYs word)))).length
      have hw0 : 0 < (markYs word).length := by rw [length_markYs]; exact h
      have hne : markYs word ≠ [] := by
        intro hcontra
        rw [hcontra] at hw0
        exact absurd hw0 (by simp)
      have hp1 : 1 ≤ r1Pos (markYs word) := r1Pos_pos _ hne
      have hp2 : 1 ≤ r2Pos (markYs word) := r2Pos_pos _ hne
      have h1 : 0 < (step1a (markYs word)).length := step1a_length_pos _ hw0
      by_cases hx : exceptions2.contains (step1a (markYs word)) = true
      · rw [if_pos hx, length_unY]
        exact h1
      · rw [if_neg hx, length_unY]
        exact step5_length_pos _ _ _ hp1 hp2
          (applyRules_length_pos _ _ _ _ hp2
            (applyRules_length_pos _ _ _ _ hp1
              (applyRules_length_pos _ _ _ _ hp1
                (step1c_length_pos _
                  (step1b_length_pos _ _ h1)))))

theorem mem_chopSuffix (w : Str) (k : Nat) (c : Char) (h : c ∈ chopSuffix w k) :
    c ∈ w := by
  unfold chopSuffix at h
  exact List.mem_of_mem_take h

theorem mem_replaceSuf (w : Str) (k : Nat) (rep : Str) (c : Char)
    (h : c ∈ replaceSuf w k rep) : c ∈ w ∨ c ∈ rep := by
  unfold replaceSuf at h
  rcases List.mem_append.mp h with h | h
  · exact Or.inl (List.mem_of_mem_take h)
  · exact Or.inr h

theorem step1a_chars (w : Str) (c : Char) (hc : c ∈ step1a w) :
    c ∈ w ∨ lowOK c = true := by
  unfold step1a at hc
  split at hc
  · rcases mem_replaceSuf _ _ _ _ hc with h | h
    · exact Or.inl h
    · exact Or.inr ((by decide : ∀ x ∈ ("ss".toList), lowOK x = true) c h)
  · split at hc
    · split at hc
      · rcases mem_replaceSuf _ _ _ _ hc with h | h
        · exact Or.inl h
        · exact Or.inr ((by decide : ∀ x ∈ (['i'] : Str), lowOK x = true) c h)
      · rcases mem_replaceSuf _ _ _ _ hc with h | h
        · exact Or.inl h
        · exact Or.inr ((by decide : ∀ x ∈ ("ie".toList), lowOK x = true) c h)
    · split at hc
      · exact Or.inl hc
      · split at hc
        · split at hc
          · exact Or.inl (mem_chopSuffix _ _ _ hc)
          · exact Or.inl hc
        · exact Or.inl hc

theorem after1bAdjust_chars (w : Str) (p1 : Nat) (c : Char)
    (hc : c ∈ after1bAdjust w p1) : c ∈ w ∨ lowOK c = true := by
  unfold after1bAdjust at hc
  split at hc
  · rcases List.mem_append.mp hc with h | h
    · exact Or.inl h
    · exact Or.inr ((by decide : ∀ x ∈ (['e'] : Str), lowOK x = true) c h)
  · split at hc
    · exact Or.inl (mem_chopSuffix _ _ _ hc)
    · split at hc
      · rcases List.mem_append.mp hc with h | h
        · exact Or.inl h
        · exact Or.inr ((by decide : ∀ x ∈ (['e'] : Str), lowOK x = true) c h)
      · exact Or.inl hc

theorem step1bDel_chars (w : Str) (k p1 : Nat) (c : Char)
    (hc : c ∈ step1bDel w k p1) : c ∈ w ∨ lowOK c = true := by
  unfold step1bDel at hc
  split at hc
  · rcases after1bAdjust_chars _ _ _ hc with h | h
    · exact Or.inl (mem_chopSuffix _ _ _ h)
    · exact Or.inr h
  · exact Or.inl hc

theorem step1b_chars (w : Str) (p1 : Nat) (c : Char) (hc : c ∈ step1b w p1) :
    c ∈ w ∨ lowOK c = true := by
  unfold step1b at hc
  split at hc
  · split at hc
    · rcases mem_replaceSuf _ _ _ _ hc with h | h
      · exact Or.inl h
      · exact Or.inr ((by decide : ∀ x ∈ ("ee".toList), lowOK x = true) c h)
    · exact Or.inl hc
  · split at hc
    · exact step1bDel_chars _ _ _ _ hc
    · split at hc
      · exact step1bDel_chars _ _ _ _ hc
      · split at hc
        · split at hc
          · rcases mem_replaceSuf _ _ _ _ hc with h | h
            · exact Or.inl h
            · exact Or.inr ((by decide : ∀ x ∈ ("ee".toList), lowOK x = true) c h)
          · exact Or.inl hc
        · split at hc
          · exact step1bDel_chars _ _ _ _ hc
          · split at hc
            · exact step1bDel_chars _ _ _ _ hc
            · exact Or.inl hc

theorem step1c_chars (w : Str) (c : Char) (hc : c ∈ step1c w) :
    c ∈ w ∨ lowOK c = true := by
  unfold step1c at hc
  split at hc
  · split at hc
    · rcases List.mem_append.mp hc with h | h
      · exact Or.inl (mem_chopSuffix _ _ _ h)
      · exact Or.inr ((by decide : ∀ x ∈ (['i'] : Str), lowOK x = true) c h)
    · exact Or.inl hc
  · exact Or.inl hc

theorem applyRules_chars (region p2 : Nat) (rules : List SufRule) (w : Str)
    (hrules : ∀ r ∈ rules, ∀ x ∈ r.rep, lowOK x = true) (c : Char)
    (hc : c ∈ applyRules region p2 rules w) : c ∈ w ∨ lowOK c = true := by
  unfold applyRules at hc
  split at hc
  · exact Or.inl hc
  · rename_i r hfind
    split at hc
    · rcases mem_replaceSuf _ _ _ _ hc with h | h
      · exact Or.inl h
      · exact Or.inr (hrules r (List.mem_of_find?_eq_some hfind) c h)
    · exact Or.inl hc

theorem step5_chars (w : Str) (p1 p2 : Nat) (c : Char) (hc : c ∈ step5 w p1 p2) :
    c ∈ w ∨ lowOK c = true := by
  unfold step5 at hc
  split at hc
  · split at hc
    · exact Or.inl (mem_chopSuffix _ _ _ hc)
    · exact Or.inl hc
  · split at hc
    · split at hc
      · exact Or.inl (mem_chopSuffix _ _ _ hc)
      · exact Or.inl hc
    · exact Or.inl hc

theorem markYsAux_chars (b : Bool) (w : Str) (c : Char) (hc : c ∈ markYsAux b w) :
    c ∈ w ∨ c = 'Y' := by
  induction w generalizing b with
  | nil => exact absurd hc (List.not_mem_nil c)
  | cons d rest ih =>
    simp only [markYsAux] at hc
    split at hc
    · rcases List.mem_cons.mp hc with h | h
      · exact Or.inr h
      · rcases ih _ h with h2 | h2
        · exact Or.inl (List.mem_cons_of_mem d h2)
        · exact Or.inr h2
    · rcases List.mem_cons.mp hc with h | h
      · exact Or.inl (h ▸ List.mem_cons_self d rest)
      · rcases ih _ h with h2 | h2
        · exact Or.inl (List.mem_cons_of_mem d h2)
        · exact Or.inr h2

theorem unY_chars (w : Str) (hw : ∀ c ∈ w, midOK c = true) :
    ∀ c ∈ unY w, lowOK c = true := by
  intro c hc
  unfold unY at hc
  obtain ⟨c0, hc0, rfl⟩ := List.mem_map.mp hc
  have h0 := hw c0 hc0
  unfold midOK at h0
  rw [Bool.or_eq_true] at h0
  by_cases hY : c0 = 'Y'
  · rw [if_pos hY]
    decide
  · rw [if_neg hY]
    rcases h0 with h0 | h0
    · exact h0
    · rw [beq_iff_eq] at h0
      exact absurd h0 hY

theorem exception1_chars (w r : Str) (h : exception1 w = some r) :
    ∀ c ∈ r, lowOK c = true := by
  unfold exception1 at h
  cases hf : exceptions1.find? (fun p => p.1 == w) with
  | none => rw [hf] at h; exact absurd h (by simp)
  | some p =>
    rw [hf] at h
    simp only [Option.map_some', Option.some.injEq] at h
    have hp := List.mem_of_find?_eq_some hf
    have hall : ∀ q ∈ exceptions1, ∀ c ∈ q.2, lowOK c = true := by decide
    rw [← h]
    exact hall p hp

theorem englishStem_chars (word : Str) (hw : ∀ c ∈ word, lowOK c = true) :
    ∀ c ∈ englishStem word, lowOK c = true := by
  cases hexc : exception1 word with
  | some r =>
    unfold englishStem
    rw [hexc]
    exact exception1_chars word r hexc
  | none =>
    unfold englishStem
    rw [hexc]
    by_cases hlen : word.length ≤ 2
    · rw [if_pos hlen]
      exact hw
    · rw [if_neg hlen]
      show ∀ c ∈ (if exceptions2.contains (step1a (markYs word)) then
          unY (step1a (markYs word))
        else
          unY (step5
            (applyRules (r2Pos (markYs word)) (r2Pos (markYs word)) step4Rules
              (applyRules (r1Pos (markYs word)) (r2Pos (markYs word)) step3Rules
                (applyRules (r1Pos (markYs word)) (r2Pos (markYs word)) step2Rules
                  (step1c (step1b (step1a (markYs word)) (r1Pos (markYs word)))))))
            (r1Pos (markYs word)) (r2Pos (markYs word)))), lowOK c = true
      have hmark : ∀ c ∈ markYs word, midOK c = true := by
        intro c hc
        unfold midOK
        rw [Bool.or_eq_true]
        rcases markYsAux_chars true word c hc with h | h
        · exact Or.inl (hw c h)
        · right
          rw [beq_iff_eq]
          exact h
      have lift : ∀ (u v : Str), (∀ c ∈ u, midOK c = true) →
          (∀ c ∈ v, c ∈ u ∨ lowOK c = true) → ∀ c ∈ v, midOK c = true := by
        intro u v hu himp c hc
        rcases himp c hc with h | h
        · exact hu c h
        · unfold midOK
          rw [Bool.or_eq_true]
          exact Or.inl h
      have h1 : ∀ c ∈ step1a (markYs word), midOK c = true :=
        lift _ _ hmark (fun c hc => step1a_chars _ c hc)
      by_cases hx : exceptions2.contains (step1a (markYs word)) = true
      · rw [if_pos hx]
        exact unY_chars _ h1
      · rw [if_neg hx]
        have hr2 : ∀ r ∈ step2Rules, ∀ x ∈ r.rep, lowOK x = true := by decide
        have hr3 : ∀ r ∈ step3Rules, ∀ x ∈ r.rep, lowOK x = true := by decide
        have hr4 : ∀ r ∈ step4Rules, ∀ x ∈ r.rep, lowOK x = true := by decide
        have h2 := lift _ (step1b (step1a (markYs word)) (r1Pos (markYs word))) h1
          (fun c hc => step1b_chars _ _ c hc)
        have h3 := lift _
          (step1c (step1b (step1a (markYs word)) (r1Pos (markYs word)))) h2
          (fun c hc => step1c_chars _ c hc)
        have h4 := lift _
          (applyRules (r1Pos (markYs word)) (r2Pos (markYs word)) step2Rules
            (step1c (step1b (step1a (markYs word)) (r1Pos (markYs word))))) h3
          (fun c hc => applyRules_chars _ _ _ _ hr2 c hc)
        have h5 := lift _
          (applyRules (r1Pos (markYs word)) (r2Pos (markYs word)) step3Rules
            (applyRules (r1Pos (markYs word)) (r2Pos (markYs word)) step2Rules
              (step1c (step1b (step1a (markYs word)) (r1Pos (markYs word)))))) h4
          (fun c hc => applyRules_chars _ _ _ _ hr3 c hc)
        have h6 := lift _
          (applyRules (r2Pos (markYs word)) (r2Pos (markYs word)) step4Rules
            (applyRules (r1Pos (markYs word)) (r2Pos (markYs word)) step3Rules
              (applyRules (r1Pos (markYs word)) (r2Pos (markYs word)) step2Rules
                (step1c (step1b (step1a (markYs word)) (r1Pos (markYs word))))))) h5
          (fun c hc => applyRules_chars _ _ _ _ hr4 c hc)
        have h7 := lift _
          (step5
            (applyRules (r2Pos (markYs word)) (r2Pos (markYs word)) step4Rules
              (applyRules (r1Pos (markYs word)) (r2Pos (markYs word)) step3Rules
                (applyRules (r1Pos (markYs word)) (r2Pos (markYs word)) step2Rules
                  (step1c (step1b (step1a (markYs word)) (r1Pos (markYs word)))))))
            (r1Pos (markYs word)) (r2Pos (markYs word))) h6
          (fun c hc => step5_chars _ _ _ c hc)
        exact unY_chars _ h7

theorem splitP_chars (p : Char → Bool) (u : Str) :
    ∀ s ∈ splitP p u, ∀ c ∈ s, p c = false := by
  induction u with
  | nil =>
    intro s hs c hc
    simp only [splitP, List.mem_singleton] at hs
    subst hs
    exact absurd hc (List.not_mem_nil c)
  | cons d rest ih =>
    intro s hs c hc
    unfold splitP at hs
    split at hs
    · rcases List.mem_cons.mp hs with rfl | hs
      · exact absurd hc (List.not_mem_nil c)
      · exact ih s hs c hc
    · rename_i hd
      cases hrec : splitP p rest with
      | nil => exact absurd hrec (splitP_ne_nil p rest)
      | cons s0 ss =>
        rw [hrec] at hs
        rcases List.mem_cons.mp hs with rfl | hs
        · rcases List.mem_cons.mp hc with rfl | hc
          · exact Bool.eq_false_iff.mpr hd
          · exact ih s0 (hrec ▸ List.mem_cons_self s0 ss) c hc
        · exact ih s (hrec ▸ List.mem_cons_of_mem s0 hs) c hc

theorem splitP_all_false (p : Char → Bool) (t : Str) (h : ∀ c ∈ t, p c = false) :
    splitP p t = [t] := by
  induction t with
  | nil => rfl
  | cons c rest ih =>
    unfold splitP
    rw [if_neg (by rw [h c (List.mem_cons_self c rest)]; exact Bool.false_ne_true)]
    rw [ih (fun x hx => h x (List.mem_cons_of_mem c hx))]

theorem splitP_cons (p : Char → Bool) (c : Char) (rest : Str) :
    splitP p (c :: rest) = if p c then [] :: splitP p rest
      else match splitP p rest with
        | [] => [[c]]
        | s :: ss => (c :: s) :: ss := rfl

theorem splitP_append_sep (p : Char → Bool) (t u : Str) (hp : p ' ' = true)
    (ht : ∀ c ∈ t, p c = false) :
    splitP p (t ++ ' ' :: u) = t :: splitP p u := by
  induction t with
  | nil =>
    simp only [List.nil_append]
    rw [splitP_cons, if_pos hp]
  | cons c rest ih =>
    simp only [List.cons_append]
    rw [splitP_cons,
      if_neg (by rw [ht c (List.mem_cons_self c rest)]; exact Bool.false_ne_true)]
    rw [ih (fun x hx => ht x (List.mem_cons_of_mem c hx))]

theorem splitP_joinSpace (p : Char → Bool) (hp : p ' ' = true) (ts : List Str)
    (hts : ts ≠ []) (h : ∀ t ∈ ts, ∀ c ∈ t, p c = false) :
    splitP p (joinSpace ts) = ts := by
  induction ts with
  | nil => exact absurd rfl hts
  | cons t rest ih =>
    cases rest with
    | nil =>
      show splitP p t = [t]
      exact splitP_all_false p t (h t (List.mem_cons_self t []))
    | cons t2 rest2 =>
      show splitP p (t ++ ' ' :: joinSpace (t2 :: rest2)) = t :: t2 :: rest2
      rw [splitP_append_sep p t _ hp (h t (List.mem_cons_self _ _))]
      rw [ih (by simp) (fun x hx c hc => h x (List.mem_cons_of_mem t hx) c hc)]

theorem lowOK_spec (c : Char) (h : lowOK c = true) :
    isWordChar c = true ∧ lowerChar c = c := by
  unfold lowOK at h
  rw [Bool.and_eq_true] at h
  exact ⟨h.1, beq_iff_eq.mp h.2⟩

theorem lowOK_lowerChar (c : Char) (h : isWordChar c = true) :
    lowOK (lowerChar c) = true := by
  unfold lowerChar
  by_cases hup : (65 ≤ c.toNat && c.toNat ≤ 90) = true
  · rw [if_pos hup]
    rw [Bool.and_eq_true, decide_eq_true_eq, decide_eq_true_eq] at hup
    have hvalid : (c.toNat + 32).isValidChar := by
      left
      omega
    have htn : (Char.ofNat (c.toNat + 32)).toNat = c.toNat + 32 := by
      unfold Char.ofNat
      rw [dif_pos hvalid]
      rfl
    unfold lowOK
    rw [Bool.and_eq_true]
    constructor
    · unfold isWordChar
      rw [htn]
      simp only [Bool.or_eq_true, Bool.and_eq_true, decide_eq_true_eq]
      omega
    · unfold lowerChar
      rw [htn]
      rw [if_neg (by
        simp only [Bool.and_eq_true, decide_eq_true_eq]
        rintro ⟨h1, h2⟩
        omega)]
      exact beq_self_eq_true _
  · rw [if_neg hup]
    unfold lowOK
    rw [Bool.and_eq_true]
    refine ⟨h, ?_⟩
    unfold lowerChar
    rw [if_neg hup]
    exact beq_self_eq_true c

theorem lowerStr_of_lowOK (t : Str) (h : ∀ c ∈ t, lowOK c = true) :
    lowerStr t = t := by
  unfold lowerStr
  have hid : ∀ c ∈ t, lowerChar c = id c := fun c hc => (lowOK_spec c (h c hc)).2
  rw [List.map_congr_left hid, List.map_id]

theorem mem_analyze (u t : Str) :
    t ∈ analyze u ↔ ∃ x, x ∈ (splitP (fun c => !isWordChar c) u).map lowerStr ∧
      (!stopwords.contains x && !x.isEmpty) = true ∧ t = englishStem x := by
  unfold analyze
  rw [List.mem_map]
  constructor
  · rintro ⟨x, hx, rfl⟩
    rw [List.mem_filter] at hx
    exact ⟨x, hx.1, hx.2, rfl⟩
  · rintro ⟨x, hx1, hx2, rfl⟩
    exact ⟨x, List.mem_filter.mpr ⟨hx1, hx2⟩, rfl⟩

theorem analyze_token_props (u t : Str) (ht : t ∈ analyze u) :
    t ≠ [] ∧ ∀ c ∈ t, lowOK c = true := by
  obtain ⟨x, hx1, hx2, rfl⟩ := (mem_analyze u t).mp ht
  obtain ⟨seg, hseg, rfl⟩ := List.mem_map.mp hx1
  rw [Bool.and_eq_true] at hx2
  have hxchars : ∀ c ∈ lowerStr seg, lowOK c = true := by
    intro c hc
    obtain ⟨c0, hc0, rfl⟩ := List.mem_map.mp hc
    have hw := splitP_chars _ u seg hseg c0 hc0
    simp only [Bool.not_eq_false'] at hw
    exact lowOK_lowerChar c0 hw
  have hne : lowerStr seg ≠ [] := by
    have he := hx2.2
    intro hcon
    rw [hcon] at he
    simp at he
  constructor
  · intro hcon
    have hlp := englishStem_length_pos (lowerStr seg) (List.length_pos.mpr hne)
    rw [hcon] at hlp
    simp at hlp
  · exact englishStem_chars _ hxchars

theorem analyze_single_segment (x : Str) (hne : x ≠ [])
    (hchars : ∀ c ∈ x, lowOK c = true) (hsw : stopwords.contains x = false) :
    analyze x = [englishStem x] := by
  unfold analyze
  rw [splitP_all_false _ x (by
    intro c hc
    simp [(lowOK_spec c (hchars c hc)).1])]
  have h1 : lowerStr x = x := lowerStr_of_lowOK x hchars
  have h2 : (!stopwords.contains x && !x.isEmpty) = true := by
    rw [hsw]
    simp [List.isEmpty_iff, hne]
  simp only [List.elem_eq_mem] at h2
  simp [h1, h2]

/-- C6 counterexample: the analyzer round-trip fails on "having", and
not because of a stemming fixed point.  `analyze "having" = ["have"]`
("having" is not a stopword, so it is stemmed, and its stem is the
stopword "have"); the stemmer is idempotent there (`stem "have" =
"have"`), yet re-analyzing the joined output drops "have" as a
stopword, so the round-trip returns `[]`, not `["have"]`. -/
theorem c6_counterexample :
    analyze ("having".toList) = [("have".toList)] ∧
    englishStem ("have".toList) = ("have".toList) ∧
    analyze (joinSpace (analyze ("having".toList))) = ([] : List Str) :=
  ⟨rfl, rfl, rfl⟩

/-- C6 (corrected): re-analysis of the space-joined output of
`analyze` reproduces the token list modulo stemming fixed points —
provided no emitted stem is itself a stopword.  The proviso is
necessary: stopwords are filtered before stemming, so a stem such as
"have" (from "having") can be an emitted token, and the second
analysis pass silently drops it (see the counterexample).  Under the
two hypotheses the equality is exact: each emitted token splits back
out as one segment (its characters are alphanumeric), is unchanged by
lowercasing (stems are lowercase), survives the stopword filter, and
restems to itself. -/
theorem c6_analyze_idempotent (s : Str)
    (hsw : ∀ t ∈ analyze s, stopwords.contains t = false)
    (hfix : ∀ t ∈ analyze s, englishStem t = t) :
    analyze (joinSpace (analyze s)) = analyze s := by
  by_cases hnil : analyze s = []
  · rw [hnil]
    rfl
  · have hprops : ∀ t ∈ analyze s, t ≠ [] ∧ ∀ c ∈ t, lowOK c = true :=
      fun t ht => analyze_token_props s t ht
    have hsplit : splitP (fun c => !isWordChar c) (joinSpace (analyze s))
        = analyze s := by
      refine splitP_joinSpace _ (by decide) _ hnil ?_
      intro t ht c hc
      have hl := (hprops t ht).2 c hc
      simp [(lowOK_spec c hl).1]
    show ((((splitP (fun c => !isWordChar c) (joinSpace (analyze s))).map
        lowerStr).filter (fun x => !stopwords.contains x && !x.isEmpty)).map
        englishStem) = analyze s
    rw [hsplit]
    have hmap : (analyze s).map lowerStr = analyze s := by
      have hid : ∀ t ∈ analyze s, lowerStr t = id t :=
        fun t ht => lowerStr_of_lowOK t (hprops t ht).2
      rw [List.map_congr_left hid, List.map_id]
    rw [hmap]
    have hfilter : (analyze s).filter (fun x => !stopwords.contains x && !x.isEmpty)
        = analyze s := by
      rw [List.filter_eq_self]
      intro t ht
      rw [Bool.and_eq_true]
      constructor
      · rw [hsw t ht]
        rfl
      · have hne := (hprops t ht).1
        simp [List.isEmpty_iff, hne]
    rw [hfilter]
    have hid2 : ∀ t ∈ analyze s, englishStem t = id t := fun t ht => hfix t ht
    rw [List.map_congr_left hid2, List.map_id]

/-- Witness for `c6_analyze_idempotent` at s = "running jumps":
`analyze` emits ["run", "jump"], neither stem is a stopword, both are
stemming fixed points, and the round-trip reproduces the list. -/
theorem c6_analyze_idempotent_witness :
    analyze (joinSpace (analyze ("running jumps".toList)))
      = analyze ("running jumps".toList) :=
  c6_analyze_idempotent ("running jumps".toList) (by decide) (by decide)

theorem mem_tokensOf_analyze (contents : Bytes) (d : DocumentRaw) (t : Str)
    (h : t ∈ tokensOf contents d) : ∃ u, t ∈ analyze u := by
  unfold tokensOf tokensOfRange at h
  cases hs : sliceStr contents d.text.1 d.text.2 with
  | none => rw [hs] at h; exact absurd h (List.not_mem_nil t)
  | some sl =>
    rw [hs] at h
    have h2 : t ∈ (match utf8Decode sl with
      | some s => analyze s
      | none => ([] : List Str)) := h
    cases hd : utf8Decode sl with
    | none => rw [hd] at h2; exact absurd h2 (List.not_mem_nil t)
    | some u => rw [hd] at h2; exact ⟨u, h2⟩

theorem searchIds_single (idx : InvIndex) (q : Str) :
    searchIds idx [q] = (analyze q).filterMap
      (fun t => (idxGet idx t).map (fun ids => (t, ids))) := by
  unfold searchIds
  rw [List.flatMap_cons, List.flatMap_nil, List.append_nil]

theorem analyze_stopword_segment (x : Str) (hchars : ∀ c ∈ x, lowOK c = true)
    (hsw : stopwords.contains x = true) : analyze x = [] := by
  unfold analyze
  rw [splitP_all_false _ x (by
    intro c hc
    simp [(lowOK_spec c (hchars c hc)).1])]
  have h1 : lowerStr x = x := lowerStr_of_lowOK x hchars
  have h2 : (!stopwords.contains x && !x.isEmpty) = false := by
    rw [hsw]
    rfl
  simp only [List.elem_eq_mem] at h2
  simp [h1, h2]

/-- C10 counterexample: on the corpus "having" the index does contain
the stopword key "have" and searching for "have" itself returns
nothing — but the key is not unreachable: the query "having" analyzes
to ["have"] and retrieves it.  So no corpus of this system exhibits a
key that NO query can ever retrieve. -/
theorem c10_counterexample :
    hasKey (rayonBuild (utf8Encode ("having".toList))
        [⟨(0, 0), (0, 0), (0, 6), 0⟩] 1) ("have".toList) = true ∧
    searchIds (rayonBuild (utf8Encode ("having".toList))
        [⟨(0, 0), (0, 0), (0, 6), 0⟩] 1) [("have".toList)] = [] ∧
    searchIds (rayonBuild (utf8Encode ("having".toList))
        [⟨(0, 0), (0, 0), (0, 6), 0⟩] 1) [("having".toList)]
      = [(("have".toList), [0])] :=
  ⟨rfl, rfl, rfl⟩

/-- C10 (corrected): every key of a built inverted index IS
retrievable by some query — the surviving lowercased segment that
produced it analyzes exactly to the key, so querying that segment
returns the key's posting entry.  What the stopword-before-stemming
order does break is self-retrieval: when an emitted stem is itself a
stopword (e.g. "have" from "having"), querying the stem verbatim
analyzes to the empty list and returns no entry. -/
theorem c10_index_keys_reachable (contents : Bytes) (docs : List DocumentRaw)
    (numThreads : Nat) (t : Str)
    (hk : hasKey (rayonBuild contents docs numThreads) t = true) :
    (∃ q ids, searchIds (rayonBuild contents docs numThreads) [q] = [(t, ids)]) ∧
    (stopwords.contains t = true
      → searchIds (rayonBuild contents docs numThreads) [t] = []) := by
  obtain ⟨d, hd, htok⟩ := (hasKey_rayonBuild contents docs numThreads t).mp hk
  obtain ⟨u, hu⟩ := mem_tokensOf_analyze contents d t htok
  obtain ⟨x, hx1, hx2, hstem⟩ := (mem_analyze u t).mp hu
  obtain ⟨seg, hseg, hxl⟩ := List.mem_map.mp hx1
  rw [Bool.and_eq_true] at hx2
  have hxchars : ∀ c ∈ x, lowOK c = true := by
    intro c hc
    rw [← hxl] at hc
    obtain ⟨c0, hc0, rfl⟩ := List.mem_map.mp hc
    have hw := splitP_chars _ u seg hseg c0 hc0
    simp only [Bool.not_eq_false'] at hw
    exact lowOK_lowerChar c0 hw
  have hxsw : stopwords.contains x = false := by
    have hb := hx2.1
    simp only [Bool.not_eq_true'] at hb
    exact hb
  have hxne : x ≠ [] := by
    have he := hx2.2
    intro hcon
    rw [hcon] at he
    simp at he
  obtain ⟨ids, hids⟩ : ∃ ids,
      idxGet (rayonBuild contents docs numThreads) t = some ids := by
    unfold hasKey at hk
    exact Option.isSome_iff_exists.mp hk
  constructor
  · refine ⟨x, ids, ?_⟩
    rw [searchIds_single, analyze_single_segment x hxne hxchars hxsw, ← hstem]
    simp [List.filterMap_cons, hids]
  · intro hsw_t
    have htprops := analyze_token_props u t hu
    rw [searchIds_single, analyze_stopword_segment t htprops.2 hsw_t]
    rfl

/-- Witness for `c10_index_keys_reachable` on the corpus "having" at
the index key "have". -/
theorem c10_index_keys_reachable_witness :
    (∃ q ids, searchIds (rayonBuild (utf8Encode ("having".toList))
        [⟨(0, 0), (0, 0), (0, 6), 0⟩] 1) [q] = [(("have".toList), ids)]) ∧
    (stopwords.contains ("have".toList) = true
      → searchIds (rayonBuild (utf8Encode ("having".toList))
          [⟨(0, 0), (0, 0), (0, 6), 0⟩] 1) [("have".toList)] = []) :=
  c10_index_keys_reachable (utf8Encode ("having".toList))
    [⟨(0, 0), (0, 0), (0, 6), 0⟩] 1 ("have".toList) (by decide)

theorem utf8EncodeChar_length_pos (c : Char) : 0 < (utf8EncodeChar c).length := by
  simp only [utf8EncodeChar]
  split_ifs <;> simp

theorem utf8DecodeChar_encode (c : Char) (r : Bytes) :
    utf8DecodeChar (utf8EncodeChar c ++ r) = some (c, r) := by
  have hv : c.toNat < 0xD800 ∨ (0xE000 ≤ c.toNat ∧ c.toNat < 0x110000) := by
    have h := c.valid
    unfold UInt32.isValidChar Nat.isValidChar at h
    exact h
  have hofn : Char.ofNat c.toNat = c := Char.ofNat_toNat c
  simp only [utf8EncodeChar]
  by_cases h1 : c.toNat < 0x80
  · rw [if_pos h1]
    simp only [List.cons_append, List.nil_append]
    simp only [utf8DecodeChar]
    rw [if_pos (by omega : c.toNat ≤ 0x7F), hofn]
  · rw [if_neg h1]
    by_cases h2 : c.toNat < 0x800
    · rw [if_pos h2]
      simp only [List.cons_append, List.nil_append]
      simp only [utf8DecodeChar]
      rw [if_neg (by omega : ¬ 0xC0 + c.toNat / 0x40 ≤ 0x7F)]
      rw [if_pos (by
        simp only [Bool.and_eq_true, decide_eq_true_eq]
        omega)]
      rw [if_pos (by
        unfold isCont
        simp only [Bool.and_eq_true, decide_eq_true_eq]
        omega)]
      have hval : (0xC0 + c.toNat / 0x40 - 0xC0) * 0x40 +
          (0x80 + c.toNat % 0x40 - 0x80) = c.toNat := by
        omega
      rw [hval, hofn]
    · rw [if_neg h2]
      by_cases h3 : c.toNat < 0x10000
      · rw [if_pos h3]
        simp only [List.cons_append, List.nil_append]
        simp only [utf8DecodeChar]
        rw [if_neg (by omega : ¬ 0xE0 + c.toNat / 0x1000 ≤ 0x7F)]
        rw [if_neg (by
          simp only [Bool.and_eq_true, decide_eq_true_eq]
          rintro ⟨-, hb⟩
          omega)]
        rw [if_pos (by
          simp only [Bool.and_eq_true, decide_eq_true_eq]
          omega)]
        rw [if_pos (by
          unfold isCont
          by_cases hE0 : 0xE0 + c.toNat / 0x1000 = 0xE0
          · rw [if_pos hE0]
            simp only [Bool.and_eq_true, decide_eq_true_eq]
            omega
          · rw [if_neg hE0]
            by_cases hED : 0xE0 + c.toNat / 0x1000 = 0xED
            · rw [if_pos hED]
              simp only [Bool.and_eq_true, decide_eq_true_eq]
              omega
            · rw [if_neg hED]
              simp only [Bool.and_eq_true, decide_eq_true_eq]
              omega)]
        have hval : (0xE0 + c.toNat / 0x1000 - 0xE0) * 0x1000 +
            (0x80 + c.toNat / 0x40 % 0x40 - 0x80) * 0x40 +
            (0x80 + c.toNat % 0x40 - 0x80) = c.toNat := by
          omega
        rw [hval, hofn]
      · rw [if_neg h3]
        simp only [List.cons_append, List.nil_append]
        simp only [utf8DecodeChar]
        rw [if_neg (by omega : ¬ 0xF0 + c.toNat / 0x40000 ≤ 0x7F)]
        rw [if_neg (by
          simp only [Bool.and_eq_true, decide_eq_true_eq]
          rintro ⟨-, hb⟩
          omega)]
        rw [if_neg (by
          simp only [Bool.and_eq_true, decide_eq_true_eq]
          rintro ⟨-, hb⟩
          omega)]
        rw [if_pos (by
          simp only [Bool.and_eq_true, decide_eq_true_eq]
          omega)]
        rw [if_pos (by
          unfold isCont
          by_cases hF0 : 0xF0 + c.toNat / 0x40000 = 0xF0
          · rw [if_pos hF0]
            simp only [Bool.and_eq_true, decide_eq_true_eq]
            omega
          · rw [if_neg hF0]
            by_cases hF4 : 0xF0 + c.toNat / 0x40000 = 0xF4
            · rw [if_pos hF4]
              simp only [Bool.and_eq_true, decide_eq_true_eq]
              omega
            · rw [if_neg hF4]
              simp only [Bool.and_eq_true, decide_eq_true_eq]
              omega)]
        have hval : (0xF0 + c.toNat / 0x40000 - 0xF0) * 0x40000 +
            (0x80 + c.toNat / 0x1000 % 0x40 - 0x80) * 0x1000 +
            (0x80 + c.toNat / 0x40 % 0x40 - 0x80) * 0x40 +
            (0x80 + c.toNat % 0x40 - 0x80) = c.toNat := by
          omega
        rw [hval, hofn]

theorem utf8Encode_length_ge (s : Str) : s.length ≤ (utf8Encode s).length := by
  induction s with
  | nil => simp [utf8Encode]
  | cons c rest ih =>
    unfold utf8Encode at ih ⊢
    rw [List.flatMap_cons, List.length_append, List.length_cons]
    have := utf8EncodeChar_length_pos c
    omega

theorem utf8DecodeAux_encode (s : Str) (fuel : Nat) (h : s.length ≤ fuel) :
    utf8DecodeAux fuel (utf8Encode s) = some s := by
  induction s generalizing fuel with
  | nil => cases fuel <;> rfl
  | cons c rest ih =>
    cases fuel with
    | zero => simp at h
    | succ f =>
      have henc : utf8Encode (c :: rest) = utf8EncodeChar c ++ utf8Encode rest := by
        unfold utf8Encode
        rw [List.flatMap_cons]
      have hne : utf8Encode (c :: rest) ≠ [] := by
        rw [henc]
        intro hcon
        have hnil := (List.append_eq_nil.mp hcon).1
        have hlen := utf8EncodeChar_length_pos c
        rw [hnil] at hlen
        simp at hlen
      obtain ⟨b, bs', hb⟩ : ∃ b bs', utf8Encode (c :: rest) = b :: bs' := by
        cases hE : utf8Encode (c :: rest) with
        | nil => exact absurd hE hne
        | cons b bs' => exact ⟨b, bs', rfl⟩
      rw [hb]
      show (match utf8DecodeChar (b :: bs') with
        | none => none
        | some (c', rest') =>
          match utf8DecodeAux f rest' with
          | none => none
          | some s => some (c' :: s)) = some (c :: rest)
      rw [← hb, henc, utf8DecodeChar_encode c (utf8Encode rest)]
      show (match utf8DecodeAux f (utf8Encode rest) with
        | none => none
        | some s => some (c :: s)) = some (c :: rest)
      rw [ih f (by
        rw [List.length_cons] at h
        omega)]

theorem utf8Decode_encode (s : Str) : utf8Decode (utf8Encode s) = some s := by
  unfold utf8Decode
  exact utf8DecodeAux_encode s _ (utf8Encode_length_ge s)

theorem toLE_length (k n : Nat) : (toLE k n).length = k := by
  induction k generalizing n with
  | zero => rfl
  | succ k ih => simp only [toLE, List.length_cons, ih]

theorem fromLE_toLE (k n : Nat) (h : n < 256 ^ k) : fromLE (toLE k n) = n := by
  induction k generalizing n with
  | zero =>
    simp only [pow_zero] at h
    have hn : n = 0 := by omega
    subst hn
    rfl
  | succ k ih =>
    simp only [toLE, fromLE]
    rw [ih (n / 256) (by
      rw [pow_succ] at h
      omega)]
    omega

theorem takeBytes_append (a r : Bytes) :
    takeBytes a.length (a ++ r) = some (a, r) := by
  unfold takeBytes
  rw [if_pos (by rw [List.length_append]; omega)]
  rw [List.take_left, List.drop_left]

theorem decodeU64_encode (n : Nat) (r : Bytes) (h : n < 2 ^ 64) :
    decodeU64 (u64le n ++ r) = some (n, r) := by
  unfold decodeU64 u64le
  have hl : (toLE 8 n).length = 8 := toLE_length 8 n
  nth_rewrite 1 [← hl]
  rw [takeBytes_append]
  simp only [Option.map_some']
  rw [fromLE_toLE 8 n (by
    have h256 : (256 : Nat) ^ 8 = 2 ^ 64 := by norm_num
    omega)]

theorem decodeI32_encode (z : Int) (r : Bytes) (hlo : -2 ^ 31 ≤ z) (hhi : z < 2 ^ 31) :
    decodeI32 (i32le z ++ r) = some (z, r) := by
  unfold decodeI32 i32le
  have h1 : 0 ≤ z % 2 ^ 32 := Int.emod_nonneg z (by norm_num)
  have hmz : ((z % 2 ^ 32).toNat : Int) = z % 2 ^ 32 := Int.toNat_of_nonneg h1
  have hl : (toLE 4 (z % 2 ^ 32).toNat).length = 4 := toLE_length 4 _
  nth_rewrite 1 [← hl]
  rw [takeBytes_append]
  simp only [Option.map_some']
  have hm : (z % 2 ^ 32).toNat < 256 ^ 4 := by
    have h2 : z % 2 ^ 32 < 2 ^ 32 := Int.emod_lt_of_pos z (by norm_num)
    have h256 : (256 : Nat) ^ 4 = 2 ^ 32 := by norm_num
    omega
  rw [fromLE_toLE 4 _ hm]
  have hval : (if (z % 2 ^ 32).toNat < 2 ^ 31 then ((z % 2 ^ 32).toNat : Int)
      else ((z % 2 ^ 32).toNat : Int) - 2 ^ 32) = z := by
    split_ifs with hc
    · omega
    · omega
  rw [hval]

theorem decodeListAux_flatMap (dec : Bytes → Option (α × Bytes)) (enc : α → Bytes)
    (l : List α) (r : Bytes)
    (h : ∀ a ∈ l, ∀ r', dec (enc a ++ r') = some (a, r')) :
    decodeListAux dec l.length (l.flatMap enc ++ r) = some (l, r) := by
  induction l with
  | nil => rfl
  | cons a as ih =>
    show (match dec ((a :: as).flatMap enc ++ r) with
      | none => none
      | some (x, rest) =>
        match decodeListAux dec as.length rest with
        | none => none
        | some (xs, rest') => some (x :: xs, rest')) = some (a :: as, r)
    rw [List.flatMap_cons, List.append_assoc, h a (List.mem_cons_self _ _)]
    show (match decodeListAux dec as.length (as.flatMap enc ++ r) with
      | none => none
      | some (xs, rest') => some (a :: xs, rest')) = some (a :: as, r)
    rw [ih (fun x hx r' => h x (List.mem_cons_of_mem _ hx) r')]

theorem decodeStr_encode (s : Str) (r : Bytes) (h : (utf8Encode s).length < 2 ^ 64) :
    decodeStr (encodeStr s ++ r) = some (s, r) := by
  unfold decodeStr encodeStr
  rw [List.append_assoc, decodeU64_encode _ _ h]
  show (match takeBytes (utf8Encode s).length (utf8Encode s ++ r) with
    | none => none
    | some (sb, r') =>
      match utf8Decode sb with
      | none => none
      | some s' => some (s', r')) = some (s, r)
  rw [takeBytes_append]
  show (match utf8Decode (utf8Encode s) with
    | none => none
    | some s' => some (s', r)) = some (s, r)
  rw [utf8Decode_encode]

theorem decodeIds_encode (ids : List Int) (r : Bytes) (hlen : ids.length < 2 ^ 64)
    (hrange : ∀ i ∈ ids, -2 ^ 31 ≤ i ∧ i < 2 ^ 31) :
    decodeIds (encodeIds ids ++ r) = some (ids, r) := by
  unfold decodeIds encodeIds
  rw [List.append_assoc, decodeU64_encode _ _ hlen]
  show decodeListAux decodeI32 ids.length (ids.flatMap i32le ++ r) = some (ids, r)
  exact decodeListAux_flatMap decodeI32 i32le ids r
    (fun i hi r' => decodeI32_encode i r' (hrange i hi).1 (hrange i hi).2)

theorem decodeEntry_encode (e : Str × List Int) (r : Bytes)
    (hs : (utf8Encode e.1).length < 2 ^ 64) (hlen : e.2.length < 2 ^ 64)
    (hrange : ∀ i ∈ e.2, -2 ^ 31 ≤ i ∧ i < 2 ^ 31) :
    decodeEntry ((encodeStr e.1 ++ encodeIds e.2) ++ r) = some (e, r) := by
  unfold decodeEntry
  rw [List.append_assoc, decodeStr_encode _ _ hs]
  show (match decodeIds (encodeIds e.2 ++ r) with
    | none => none
    | some (ids, r') => some ((e.1, ids), r')) = some (e, r)
  rw [decodeIds_encode _ _ hlen hrange]

theorem decodeIndex_encodeIndex (m : InvIndex)
    (hcount : m.length < 2 ^ 64)
    (hentries : ∀ e ∈ m, (utf8Encode e.1).length < 2 ^ 64 ∧ e.2.length < 2 ^ 64 ∧
      ∀ i ∈ e.2, -2 ^ 31 ≤ i ∧ i < 2 ^ 31) :
    decodeIndex (encodeIndex m) = some m := by
  unfold decodeIndex encodeIndex
  have happ : u64le m.length ++ m.flatMap (fun e => encodeStr e.1 ++ encodeIds e.2)
      = u64le m.length ++ (m.flatMap (fun e => encodeStr e.1 ++ encodeIds e.2) ++ []) := by
    rw [List.append_nil]
  rw [happ, decodeU64_encode _ _ hcount]
  show (decodeListAux decodeEntry m.length
    (m.flatMap (fun e => encodeStr e.1 ++ encodeIds e.2) ++ [])).map
      (fun p => p.1) = some m
  rw [decodeListAux_flatMap decodeEntry (fun e => encodeStr e.1 ++ encodeIds e.2) m []
    (fun e he r' => decodeEntry_encode e r' (hentries e he).1 (hentries e he).2.1
      (hentries e he).2.2)]
  rfl

theorem decodeDoc_encode (d : DocumentRaw) (r : Bytes)
    (ht1 : d.title.1 < 2 ^ 64) (ht2 : d.title.2 < 2 ^ 64)
    (hu1 : d.url.1 < 2 ^ 64) (hu2 : d.url.2 < 2 ^ 64)
    (hx1 : d.text.1 < 2 ^ 64) (hx2 : d.text.2 < 2 ^ 64)
    (hlo : -2 ^ 31 ≤ d.id) (hhi : d.id < 2 ^ 31) :
    decodeDoc (encodeDoc d ++ r) = some (d, r) := by
  unfold decodeDoc encodeDoc encodeRange
  simp only [List.append_assoc]
  rw [decodeU64_encode _ _ ht1]
  show (match decodeU64 (u64le d.title.2 ++ (u64le d.url.1 ++ (u64le d.url.2 ++
      (u64le d.text.1 ++ (u64le d.text.2 ++ (i32le d.id ++ r)))))) with
    | none => none
    | some (t2, r2) =>
      match decodeU64 r2 with
      | none => none
      | some (u1, r3) =>
        match decodeU64 r3 with
        | none => none
        | some (u2, r4) =>
          match decodeU64 r4 with
          | none => none
          | some (x1, r5) =>
            match decodeU64 r5 with
            | none => none
            | some (x2, r6) =>
              match decodeI32 r6 with
              | none => none
              | some (i, r7) => some (⟨(d.title.1, t2), (u1, u2), (x1, x2), i⟩, r7))
    = some (d, r)
  rw [decodeU64_encode _ _ ht2]
  show (match decodeU64 (u64le d.url.1 ++ (u64le d.url.2 ++
      (u64le d.text.1 ++ (u64le d.text.2 ++ (i32le d.id ++ r))))) with
    | none => none
    | some (u1, r3) =>
      match decodeU64 r3 with
      | none => none
      | some (u2, r4) =>
        match decodeU64 r4 with
        | none => none
        | some (x1, r5) =>
          match decodeU64 r5 with
          | none => none
          | some (x2, r6) =>
            match decodeI32 r6 with
            | none => none
            | some (i, r7) => some (⟨(d.title.1, d.title.2), (u1, u2), (x1, x2), i⟩, r7))
    = some (d, r)
  rw [decodeU64_encode _ _ hu1]
  show (match decodeU64 (u64le d.url.2 ++
      (u64le d.text.1 ++ (u64le d.text.2 ++ (i32le d.id ++ r)))) with
    | none => none
    | some (u2, r4) =>
      match decodeU64 r4 with
      | none => none
      | some (x1, r5) =>
        match decodeU64 r5 with
        | none => none
        | some (x2, r6) =>
          match decodeI32 r6 with
          | none => none
          | some (i, r7) =>
            some (⟨(d.title.1, d.title.2), (d.url.1, u2), (x1, x2), i⟩, r7))
    = some (d, r)
  rw [decodeU64_encode _ _ hu2]
  show (match decodeU64 (u64le d.text.1 ++ (u64le d.text.2 ++ (i32le d.id ++ r))) with
    | none => none
    | some (x1, r5) =>
      match decodeU64 r5 with
      | none => none
      | some (x2, r6) =>
        match decodeI32 r6 with
        | none => none
        | some (i, r7) =>
          some (⟨(d.title.1, d.title.2), (d.url.1, d.url.2), (x1, x2), i⟩, r7))
    = some (d, r)
  rw [decodeU64_encode _ _ hx1]
  show (match decodeU64 (u64le d.text.2 ++ (i32le d.id ++ r)) with
    | none => none
    | some (x2, r6) =>
      match decodeI32 r6 with
      | none => none
      | some (i, r7) =>
        some (⟨(d.title.1, d.title.2), (d.url.1, d.url.2), (d.text.1, x2), i⟩, r7))
    = some (d, r)
  rw [decodeU64_encode _ _ hx2]
  show (match decodeI32 (i32le d.id ++ r) with
    | none => none
    | some (i, r7) =>
      some (⟨(d.title.1, d.title.2), (d.url.1, d.url.2), (d.text.1, d.text.2), i⟩, r7))
    = some (d, r)
  rw [decodeI32_encode _ _ hlo hhi]

theorem decodeDocs_encodeDocs (ds : List DocumentRaw)
    (hcount : ds.length < 2 ^ 64)
    (hdocs : ∀ d ∈ ds, d.title.1 < 2 ^ 64 ∧ d.title.2 < 2 ^ 64 ∧
      d.url.1 < 2 ^ 64 ∧ d.url.2 < 2 ^ 64 ∧ d.text.1 < 2 ^ 64 ∧ d.text.2 < 2 ^ 64 ∧
      -2 ^ 31 ≤ d.id ∧ d.id < 2 ^ 31) :
    decodeDocs (encodeDocs ds) = some ds := by
  unfold decodeDocs encodeDocs
  have happ : u64le ds.length ++ ds.flatMap encodeDoc
      = u64le ds.length ++ (ds.flatMap encodeDoc ++ []) := by
    rw [List.append_nil]
  rw [happ, decodeU64_encode _ _ hcount]
  show (decodeListAux decodeDoc ds.length (ds.flatMap encodeDoc ++ [])).map
    (fun p => p.1) = some ds
  rw [decodeListAux_flatMap decodeDoc encodeDoc ds []
    (fun d hd r' => by
      obtain ⟨h1, h2, h3, h4, h5, h6, h7, h8⟩ := hdocs d hd
      exact decodeDoc_encode d r' h1 h2 h3 h4 h5 h6 h7 h8)]
  rfl

/-- C4 (confirmed): serializing a built indexer's inverted index and
document table with `bincode` and loading the bytes plus the corpus
into a fresh indexer via `build_from_serialized` succeeds and yields
an indexer with the same index, documents and contents — hence
`search` returns, for every query, the same id sets per term.  The
hypotheses state the machine-width invariants every really-built
indexer satisfies (`usize` lengths and offsets below `2^64`, `i32` ids
in range), which the unbounded-integer model must assume. -/
theorem c4_serialize_roundtrip (st : RayonIndexerState)
    (hicount : st.index.length < 2 ^ 64)
    (hentries : ∀ e ∈ st.index, (utf8Encode e.1).length < 2 ^ 64 ∧
      e.2.length < 2 ^ 64 ∧ ∀ i ∈ e.2, -2 ^ 31 ≤ i ∧ i < 2 ^ 31)
    (hdcount : st.documents.length < 2 ^ 64)
    (hdocs : ∀ d ∈ st.documents, d.title.1 < 2 ^ 64 ∧ d.title.2 < 2 ^ 64 ∧
      d.url.1 < 2 ^ 64 ∧ d.url.2 < 2 ^ 64 ∧ d.text.1 < 2 ^ 64 ∧ d.text.2 < 2 ^ 64 ∧
      -2 ^ 31 ≤ d.id ∧ d.id < 2 ^ 31) :
    ∃ st', build_from_serialized
        ⟨get_serialized_inverted_index st, get_serialized_documents st,
         st.full_contents⟩ = some st' ∧
      (∀ q, searchIds st'.index q = searchIds st.index q) ∧
      st'.documents = st.documents ∧ st'.full_contents = st.full_contents := by
  refine ⟨⟨st.index, st.documents, st.full_contents⟩, ?_, fun q => rfl, rfl, rfl⟩
  show (match decodeIndex (encodeIndex st.index) with
    | none => none
    | some idx =>
      match decodeDocs (encodeDocs st.documents) with
      | none => none
      | some docs => some (⟨idx, docs, st.full_contents⟩ : RayonIndexerState))
    = some ⟨st.index, st.documents, st.full_contents⟩
  rw [decodeIndex_encodeIndex st.index hicount hentries]
  show (match decodeDocs (encodeDocs st.documents) with
    | none => none
    | some docs => some (⟨st.index, docs, st.full_contents⟩ : RayonIndexerState))
    = some ⟨st.index, st.documents, st.full_contents⟩
  rw [decodeDocs_encodeDocs st.documents hdcount hdocs]

/-- Witness for `c4_serialize_roundtrip` at a one-entry index over the
corpus "zebra". -/
theorem c4_serialize_roundtrip_witness :
    ∃ st', build_from_serialized
        ⟨get_serialized_inverted_index
           ⟨[(("zebra".toList), [0])], [⟨(0, 0), (0, 0), (0, 5), 0⟩],
            utf8Encode ("zebra".toList)⟩,
         get_serialized_documents
           ⟨[(("zebra".toList), [0])], [⟨(0, 0), (0, 0), (0, 5), 0⟩],
            utf8Encode ("zebra".toList)⟩,
         (⟨[(("zebra".toList), [0])], [⟨(0, 0), (0, 0), (0, 5), 0⟩],
            utf8Encode ("zebra".toList)⟩ : RayonIndexerState).full_contents⟩
        = some st' ∧
      (∀ q, searchIds st'.index q = searchIds
        (⟨[(("zebra".toList), [0])], [⟨(0, 0), (0, 0), (0, 5), 0⟩],
          utf8Encode ("zebra".toList)⟩ : RayonIndexerState).index q) ∧
      st'.documents = [⟨(0, 0), (0, 0), (0, 5), 0⟩] ∧
      st'.full_contents = utf8Encode ("zebra".toList) :=
  c4_serialize_roundtrip
    ⟨[(("zebra".toList), [0])], [⟨(0, 0), (0, 0), (0, 5), 0⟩],
     utf8Encode ("zebra".toList)⟩
    (by decide) (by decide) (by decide) (by decide)
